import Mathlib

/-!
Verification of the r2cli profile/credential layer and request engine.

The TypeScript source is shallowly embedded: each definition below mirrors
one function (or one self-contained fragment) of `src/config.ts`
(`src/unnamed/part_000`) or `src/s3.ts`.  External collaborators
(the OS vault, the interactive prompt, the network validation call) are
passed in as explicit function parameters or boolean oracles, so that the
control flow of the embedded code stays exactly the control flow of the
source.
-/

namespace R2

/-! ### Shared string machinery

`splitChar sep` is the embedding of JavaScript `String.prototype.split`
with a single-character separator, as used by `kv.split('=')` in
`handleS3Cmd` and in the `--meta` parser: `''.split(c) = ['']`, and each
occurrence of the separator starts a new group. -/

def splitChar (sep : Char) : List Char → List (List Char)
  | [] => [[]]
  | c :: rest =>
    if c = sep then [] :: splitChar sep rest
    else
      match splitChar sep rest with
      | [] => [[c]]
      | g :: gs => (c :: g) :: gs

/-! ### Profile records as persisted (C1)

`initConfig` persists `existingConfig[name] = { account: account_id,
access_key_id: access_key_id }` while `importConfig` persists
`existingConfig[name] = { account_id: ..., access_key_id: ... }`.
A persisted record is modelled as the ordered list of its key/value
pairs, exactly as the object literal in the source spells them. -/

/-- Embedding of `accountForR2URL`: `new URL(r2Url).hostname.split('.')[0]`,
for `http(s)://host/...`-shaped URLs (no userinfo/port, which is all the
importer ever feeds it). -/
def accountForR2URL (r2Url : String) : String :=
  let afterScheme := ((r2Url.data.dropWhile (fun c => c ≠ '/')).drop 2)
  let host := afterScheme.takeWhile (fun c => c ≠ '/')
  String.mk ((splitChar '.' host).headD [])

/-- The record `initConfig` stores in the registry table (src line 357). -/
def initRecord (account_id access_key_id : String) : List (String × String) :=
  [("account", account_id), ("access_key_id", access_key_id)]

/-- The record `importConfig` stores in the registry table for an rclone
section with the given `endpoint` and `access_key_id` (src lines 320-323). -/
def importRecord (endpoint access_key_id : String) : List (String × String) :=
  [("account_id", accountForR2URL endpoint), ("access_key_id", access_key_id)]

def recordHasKey (r : List (String × String)) (k : String) : Bool :=
  r.any (fun kv => kv.1 == k)

/-- The spec's schema for one profile record:
`{ account: string, access_key_id: string }` — exactly the keys
`account` and `access_key_id` (values are strings by construction). -/
def conformsProfileSchema (r : List (String × String)) : Bool :=
  r.map Prod.fst == ["account", "access_key_id"]

/-! ### Presign method mapping (C4)

`handleS3Cmd` picks the presign HTTP method from
`command.constructor.name` (src/s3.ts lines 617-626). -/

/-- JS `s.startsWith(p)` on char lists. -/
def leadsWith : List Char → List Char → Bool
  | [], _ => true
  | _ :: _, [] => false
  | p :: ps, c :: cs => p = c && leadsWith ps cs

/-- Embedding of the method selection in `handleS3Cmd`. -/
def presignMethod (name : String) : String :=
  if leadsWith "Put".data name.data then "GET"
  else if leadsWith "Delete".data name.data then "DELETE"
  else if leadsWith "Head".data name.data then "HEAD"
  else "GET"

/-- The S3 commands actually constructed by `buildS3Commands`
(`put-bucket-cors` throws before constructing a command and is omitted). -/
inductive S3Cmd
  | listBuckets | createBucket | headBucket | getBucketEncryption
  | getBucketLocation | getBucketCors | deleteBucketCors
  | listObjectsV1 | listObjects | headObject | getObject | putObject
deriving DecidableEq

/-- `constructor.name` of the AWS SDK command class each sub-command builds. -/
def ctorName : S3Cmd → String
  | .listBuckets => "ListBucketsCommand"
  | .createBucket => "CreateBucketCommand"
  | .headBucket => "HeadBucketCommand"
  | .getBucketEncryption => "GetBucketEncryptionCommand"
  | .getBucketLocation => "GetBucketLocationCommand"
  | .getBucketCors => "GetBucketCorsCommand"
  | .deleteBucketCors => "DeleteBucketCorsCommand"
  | .listObjectsV1 => "ListObjectsCommand"
  | .listObjects => "ListObjectsV2Command"
  | .headObject => "HeadObjectCommand"
  | .getObject => "GetObjectCommand"
  | .putObject => "PutObjectCommand"

inductive VerbFamily
  | creation | deletion | existenceCheck | other
deriving DecidableEq

/-- The verb family of each command, following the claim's classification:
creation-style are the `Put*` verbs, deletion-style the `Delete*` verbs,
existence-check the `Head*` verbs, everything else is `other`. -/
def verbFamily : S3Cmd → VerbFamily
  | .putObject => .creation
  | .deleteBucketCors => .deletion
  | .headBucket => .existenceCheck
  | .headObject => .existenceCheck
  | _ => .other

/-- The spec's words: creation-style presigns as a retrieval method,
deletion-style as deletion, existence-check as a metadata-only method,
everything else as retrieval. -/
def specFamilyMethod : VerbFamily → String
  | .creation => "GET"
  | .deletion => "DELETE"
  | .existenceCheck => "HEAD"
  | .other => "GET"

/-! ### Header merge for presigning (C5, C9)

In `handleS3Cmd` (src/s3.ts lines 602-615) each `--sign-header` argument
`kv` is split with `kv.split('=')`, destructured as `[k, v]`, and written
into the base header object with `headers[k] = v`.  A header map is the
ordered list of (key, value) pairs of the JS object; an absent `v`
(`undefined`) is `none`. -/

abbrev Headers := List (String × Option String)

/-- JS object property write `h[k] = v`: overwrite the existing entry in
place (keys are unique in a JS object, so at most one entry matches),
append otherwise. -/
def setHeader : Headers → String → Option String → Headers
  | [], k, v => [(k, v)]
  | p :: t, k, v => if p.1 = k then (p.1, v) :: t else p :: setHeader t k v

/-- JS object property read `h[k]`. -/
def getHeader : Headers → String → Option (Option String)
  | [], _ => none
  | p :: t, k => if p.1 = k then some p.2 else getHeader t k

def hasHeaderKey (h : Headers) (k : String) : Bool :=
  h.any (fun p => p.1 == k)

/-- `kv.split('=')` destructured as `[k, v]`: `k` is the first group,
`v` the second group or `undefined` if there is none; later groups are
dropped. -/
def splitKV (kv : String) : String × Option String :=
  match splitChar '=' kv.data with
  | [] => ("", none)
  | [k] => (String.mk k, none)
  | k :: v :: _ => (String.mk k, some (String.mk v))

/-- The sign-header loop: `for (const [k, v] of signHeaders.map(kv =>
kv.split('='))) headers[k] = v`. -/
def mergeSignHeaders (base : Headers) (shs : List String) : Headers :=
  shs.foldl (fun acc kv => setHeader acc (splitKV kv).1 (splitKV kv).2) base

/-- The value the last sign-header pair with key `k` assigns, if any. -/
def lastSignValue (shs : List String) (k : String) : Option (Option String) :=
  (shs.reverse.find? (fun kv => (splitKV kv).1 == k)).map (fun kv => (splitKV kv).2)

/-! ### put-object conditional headers (C10)

`buildS3Commands`, put-object handler, extra-headers literal
(src/s3.ts lines 482-487). -/

structure PutObjectCondArgs where
  is_etag : Option String
  not_etag : Option String
  uploaded_before : Option String
  uploaded_after : Option String

/-- JS truthiness of an optional string argument. -/
def truthy : Option String → Bool
  | none => false
  | some s => s != ""

/-- The extra-header object built for `put-object`:
`{...(argv['is-etag'] && {IfMatch: ...}), ...(argv['not-etag'] && ...),
...(argv['uploaded-after'] && {IfModifiedSince: argv['uploaded-before']}),
...(argv['uploaded-before'] && {IfUnmodifiedSince: argv['uploaded-before']})}`. -/
def putObjectExtraHeaders (a : PutObjectCondArgs) : Headers :=
  (if truthy a.is_etag then [("IfMatch", a.is_etag)] else [])
    ++ (if truthy a.not_etag then [("IfNoneMatch", a.not_etag)] else [])
    ++ (if truthy a.uploaded_after then [("IfModifiedSince", a.uploaded_before)] else [])
    ++ (if truthy a.uploaded_before then [("IfUnmodifiedSince", a.uploaded_before)] else [])

/-! ### Profile resolution (C2, C6)

`retrieveConfig` / `retrieveOnlyConfig` read the registry table that
`TOML.parse` produced, as a `Record<string, {account, access_key_id}>`;
the table is the ordered list of its entries.  The OS vault
(`keytar.getPassword`) is a function from `(endpoint, access_key_id)` to
an optional secret, and the interactive list prompt is a function from
the offered choices to the selected string. -/

structure ProfileInfo where
  account : String
  access_key_id : String
deriving DecidableEq, Repr

abbrev Registry := List (String × ProfileInfo)

abbrev Vault := String → String → Option String

/-- A fully materialized `Config` (in-memory only). -/
structure Config where
  profile : String
  account_id : String
  access_key_id : String
  secret_access_key : String
deriving DecidableEq, Repr

/-- Endpoint derivation: https://account_id.r2.cloudflarestorage.com -/
def endpointOf (account_id : String) : String :=
  "https://" ++ account_id ++ ".r2.cloudflarestorage.com"

/-- `retrieveCreds`: look the secret up in the vault under the derived
endpoint and the access key id. -/
def retrieveCreds (vault : Vault) (account_id access_key_id : String) : Option String :=
  vault (endpointOf account_id) access_key_id

/-- `accountOrProfile in existingConfig` followed by
`existingConfig[accountOrProfile]`. -/
def lookupProfile (table : Registry) (name : String) : Option ProfileInfo :=
  (table.find? (fun p => p.1 == name)).map Prod.snd

/-- The `^[0-9A-Fa-f]{32}$` test used for the error message. -/
def isHex32 (s : String) : Bool :=
  s.length == 32 &&
    s.data.all (fun c =>
      c.isDigit || (decide ('a' ≤ c) && decide (c ≤ 'f')) ||
        (decide ('A' ≤ c) && decide (c ≤ 'F')))

def warnScan (profile acct : String) : String :=
  "Profile " ++ profile ++ " matches account " ++ acct ++
    " appears to be missing credentials."

inductive ResolveErr
  | credsMissing
  | notFound (kind identifier : String)
deriving DecidableEq, Repr

/-- The account-id scan loop of `retrieveConfig` (src lines 431-446):
returns the warnings it printed and, if some entry with a matching
account had a retrievable secret, the resulting `Config` (whose `profile`
field is the scanned identifier, as in the source). -/
def scanProfiles (vault : Vault) (acct : String) : Registry → List String × Option Config
  | [] => ([], none)
  | (profile, info) :: rest =>
    if info.account = acct then
      match retrieveCreds vault info.account info.access_key_id with
      | some secret => ([], some ⟨acct, info.account, info.access_key_id, secret⟩)
      | none =>
        let r := scanProfiles vault acct rest
        (warnScan profile acct :: r.1, r.2)
    else scanProfiles vault acct rest

/-- `retrieveConfig(accountOrProfile)` (src lines 414-451): the returned
pair is (warnings printed, result). -/
def retrieveConfig (table : Registry) (vault : Vault) (id : String) :
    List String × Except ResolveErr Config :=
  match lookupProfile table id with
  | some info =>
    match retrieveCreds vault info.account info.access_key_id with
    | some secret => ([], .ok ⟨id, info.account, info.access_key_id, secret⟩)
    | none => ([], .error .credsMissing)
  | none =>
    match scanProfiles vault id table with
    | (ws, some cfg) => (ws, .ok cfg)
    | (ws, none) =>
      (ws, .error (.notFound (if isHex32 id then "Account" else "Profile") id))

inductive ImplicitErr
  | noProfiles
  | credsMissing
  | badChoice
deriving DecidableEq, Repr

/-- The label `retrieveOnlyConfig` offers for each profile:
`"<account>: <profile>"`. -/
def choiceLabel (p : String × ProfileInfo) : String :=
  p.2.account ++ ": " ++ p.1

def warnImplicit (profile acct : String) : String :=
  "Profile " ++ profile ++ " for account " ++ acct ++
    " appears to be missing credentials."

/-- The tail of `retrieveOnlyConfig` shared by the one-profile and the
prompted path (src lines 399-411): retrieve the secret of the chosen
entry, warning and failing if it is missing. -/
def finishImplicit (vault : Vault) (p : String × ProfileInfo) :
    List String × Except ImplicitErr Config :=
  match retrieveCreds vault p.2.account p.2.access_key_id with
  | none => ([warnImplicit p.1 p.2.account], .error .credsMissing)
  | some s => ([], .ok ⟨p.1, p.2.account, p.2.access_key_id, s⟩)

/-- `retrieveOnlyConfig()` (src lines 370-412).  The first component is
the list of interactive prompts issued (each is the list of offered
choices); the second is (warnings, result).  A selection that is not
among the choices renders `configs[-1]` undefined in the source and is
modelled as `badChoice`. -/
def retrieveOnlyConfig (table : Registry) (vault : Vault)
    (choose : List String → String) :
    List (List String) × (List String × Except ImplicitErr Config) :=
  match table with
  | [] => ([], ([], .error .noProfiles))
  | [p] => ([], finishImplicit vault p)
  | _ =>
    let choices := table.map choiceLabel
    let idx := choices.indexOf (choose choices)
    ([choices],
      match table.get? idx with
      | some p => finishImplicit vault p
      | none => ([], .error .badChoice))

/-! ### saveCreds event trace (C8)

`saveCreds` (src lines 216-244) performs, in order: the list-buckets
validation call, then (on success) the keytar load, then the vault write.
The outcomes of the two external steps are boolean oracles; the
observable actions are the trace. -/

inductive SaveEvent
  | validateCall (endpoint access_key_id : String)
  | hardExit (code : Nat)
  | failReturn
  | vaultWrite (endpoint access_key_id secret : String)
deriving DecidableEq, Repr

/-- The trace of `saveCreds`: validate against the derived endpoint; on
validation failure `process.exit(1)`; on keytar failure set the exit code
and return; otherwise `setPassword`. -/
def saveCreds (account_id access_key_id secret : String)
    (validationOk keytarOk : Bool) : List SaveEvent :=
  let endpoint := endpointOf account_id
  if !validationOk then
    [.validateCall endpoint access_key_id, .hardExit 1]
  else if !keytarOk then
    [.validateCall endpoint access_key_id, .failReturn]
  else
    [.validateCall endpoint access_key_id,
      .vaultWrite endpoint access_key_id secret]

/-! ### Filesystem model and createInitialConfig (C7)

`CandidatePaths.createInitialConfig` (src lines 107-157) walks the
platform candidate list, doing a non-recursive `fs.mkdir` of the parent
(tolerating `EEXIST`, skipping the candidate on any other error) and
then `touchPath` (an `fs.open(p, 'a')`, i.e. create-if-absent in append
mode).  The filesystem is a set of directories plus a map from file
paths to contents. -/

structure FS where
  dirs : List String
  files : List (String × String)
deriving DecidableEq, Repr

def hasDir (fs : FS) (d : String) : Bool := fs.dirs.contains d

def hasFile (fs : FS) (p : String) : Bool := fs.files.any (fun f => f.1 == p)

def fileContents (fs : FS) (p : String) : Option String :=
  (fs.files.find? (fun f => f.1 == p)).map Prod.snd

/-- `path.dirname` for the forward-slash paths the tool builds. -/
def dirname (p : String) : String :=
  if p.data.contains '/' then
    let parent := ((p.data.reverse.dropWhile (fun c => c ≠ '/')).drop 1).reverse
    if parent = [] then "/" else String.mk parent
  else "."

inductive MkdirOutcome
  | ok | eexist | enoent
deriving DecidableEq, Repr

/-- Non-recursive `fs.mkdir d`: `EEXIST` if something is already at `d`,
`ENOENT` if the parent directory is missing. -/
def mkdirOutcome (fs : FS) (d : String) : MkdirOutcome :=
  if hasDir fs d || hasFile fs d then .eexist
  else if hasDir fs (dirname d) then .ok
  else .enoent

def mkdirApply (fs : FS) (d : String) : FS :=
  match mkdirOutcome fs d with
  | .ok => { fs with dirs := d :: fs.dirs }
  | _ => fs

/-- `touchPath p` = `fs.open(p, 'a')` then close: succeeds without
modification if the file exists, fails on a directory or a missing
parent, otherwise creates an empty file. -/
def touchFS (fs : FS) (p : String) : Option FS :=
  if hasFile fs p then some fs
  else if hasDir fs p then none
  else if hasDir fs (dirname p) then some { fs with files := (p, "") :: fs.files }
  else none

/-- One loop iteration of `createInitialConfig`: mkdir the parent
(continue to the next candidate unless it succeeds or fails `EEXIST`),
then touch the candidate (continue on failure). -/
def attemptCandidate (fs : FS) (p : String) : Option String × FS :=
  match mkdirOutcome fs (dirname p) with
  | .enoent => (none, fs)
  | _ =>
    let fs1 := mkdirApply fs (dirname p)
    match touchFS fs1 p with
    | some fs2 => (some p, fs2)
    | none => (none, fs1)

def tryCandidates (fs : FS) : List String → Option String × FS
  | [] => (none, fs)
  | p :: rest =>
    match attemptCandidate fs p with
    | (some q, fs1) => (some q, fs1)
    | (none, fs1) => tryCandidates fs1 rest

/-- The process environment the constructor of `CandidatePaths` reads. -/
structure Env where
  isWin : Bool
  appData : Option String
  xdgConfigHome : Option String
  home : Option String
deriving Repr

def winAppDataPath (e : Env) : Option String :=
  if e.isWin then e.appData.map (fun a => a ++ "/cloudflare/r2.toml") else none

def xdgPath (e : Env) : Option String :=
  e.xdgConfigHome.map (fun x => x ++ "/cloudflare/r2.toml")

def homePath0 (e : Env) : Option String :=
  e.home.map (fun h => h ++ "/.config/cloudflare/r2.toml")

def homePath1 (e : Env) : Option String :=
  e.home.map (fun h => h ++ "/.r2.toml")

/-- The candidate list the loop walks: on Windows app-data then the first
home fallback, otherwise XDG then the first home fallback, `undefined`
entries skipped. -/
def mainCandidates (e : Env) : List String :=
  (if e.isWin then [winAppDataPath e, homePath0 e] else [xdgPath e, homePath0 e]).filterMap id

/-- The loop plus last-resort step of `createInitialConfig`, over an
explicit candidate list and fallback: walk the candidates; if all fail,
touch the last-resort file (without a mkdir). -/
def runCreate (cands : List String) (fb : Option String) (fs : FS) :
    Option String × FS :=
  match tryCandidates fs cands with
  | (some p, fs1) => (some p, fs1)
  | (none, fs1) =>
    match fb with
    | some f =>
      match touchFS fs1 f with
      | some fs2 => (some f, fs2)
      | none => (none, fs1)
    | none => (none, fs1)

/-- `createInitialConfig` for the tool's own registry. -/
def createInitialConfig (e : Env) (fs : FS) : Option String × FS :=
  runCreate (mainCandidates e) (homePath1 e) fs

/-- Filesystem growth: every directory and file of `fs` is present in `g`. -/
def fsLe (fs g : FS) : Prop :=
  (∀ d, hasDir fs d = true → hasDir g d = true) ∧
  (∀ p, hasFile fs p = true → hasFile g p = true)

/-- The environment of the C7 counterexample: Linux,
`XDG_CONFIG_HOME=/home/u/.config/cloudflare`, `HOME=/home/u`. -/
def ceEnv : Env :=
  { isWin := false, appData := none,
    xdgConfigHome := some "/home/u/.config/cloudflare", home := some "/home/u" }

/-- Counterexample start state: `~/.config` exists, nothing below it. -/
def ceFS : FS :=
  { dirs := ["/", "/home", "/home/u", "/home/u/.config"], files := [] }

/-- The aliasing-freedom proviso of the amended C7: no candidate's
grandparent directory is a candidate's parent (the violated case:
`XDG_CONFIG_HOME = <home>/.config/cloudflare`), distinct candidates have
distinct parent directories, no candidate's parent is itself a
candidate, and the last-resort file is no candidate nor a candidate's
parent.  Duplicate candidates (e.g. `XDG_CONFIG_HOME = <home>/.config`,
which makes both candidates the same path) satisfy the proviso. -/
def nonAliasing (cands : List String) (fb : Option String) : Prop :=
  (∀ c1 ∈ cands, ∀ c2 ∈ cands, dirname (dirname c1) ≠ dirname c2) ∧
    (∀ c1 ∈ cands, ∀ c2 ∈ cands, c1 ≠ c2 → dirname c1 ≠ dirname c2) ∧
    (∀ c1 ∈ cands, ∀ c2 ∈ cands, dirname c1 ≠ c2) ∧
    (∀ f ∈ fb.toList, ∀ c ∈ cands, f ≠ c ∧ f ≠ dirname c)

/-! ### Registry text codec (C3)

Modelled from the spec: the TOML codec is an external collaborator
("TOML/INI text parsing [is] treated as given parsers producing/consuming
plain key-value structures"); it is not part of src/.  The registry
document is the shape the tool reads and writes: a sequence of named
sections of string-valued keys.  `save` renders the canonical text,
`load` parses it back; both are total functions on the canonical
fragment. -/

abbrev TomlSection := List Char × List (List Char × List Char)

abbrev TomlDoc := List TomlSection

/-- Characters allowed in bare TOML keys and section names. -/
def bareChar (c : Char) : Bool :=
  c.isAlphanum || c = '_' || c = '-' || c = '.'

def wfVal (v : List Char) : Bool := v.all (fun c => c ≠ '"')

def wfEntry (kv : List Char × List Char) : Bool :=
  (kv.1 ≠ [] && kv.1.all bareChar) && wfVal kv.2

def wfSection (s : TomlSection) : Bool :=
  (s.1 ≠ [] && s.1.all bareChar) && s.2.all wfEntry

def wfDoc (d : TomlDoc) : Bool := d.all wfSection

def stringifyEntry (kv : List Char × List Char) : List Char :=
  kv.1 ++ ' ' :: '=' :: ' ' :: '"' :: (kv.2 ++ '"' :: '\n' :: [])

def stringifyEntries : List (List Char × List Char) → List Char
  | [] => []
  | kv :: rest => stringifyEntry kv ++ stringifyEntries rest

def stringifySection (s : TomlSection) : List Char :=
  '[' :: (s.1 ++ ']' :: '\n' :: stringifyEntries s.2)

def stringifyDoc : TomlDoc → List Char
  | [] => []
  | s :: rest => stringifySection s ++ stringifyDoc rest

/-- Parse the entry lines of one section; stops at the next section
header or the end of the document. -/
def parseEntriesAux (fuel : Nat) (cs : List Char) :
    Option (List (List Char × List Char) × List Char) :=
  if cs = [] then some ([], [])
  else if cs.head? = some '[' then some ([], cs)
  else
    match fuel with
    | 0 => none
    | Nat.succ f =>
      match cs.dropWhile (fun c => c ≠ ' ') with
      | ' ' :: '=' :: ' ' :: '"' :: rest2 =>
        match rest2.dropWhile (fun c => c ≠ '"') with
        | '"' :: '\n' :: rest3 =>
          match parseEntriesAux f rest3 with
          | some (es, rest4) =>
            some ((cs.takeWhile (fun c => c ≠ ' '),
              rest2.takeWhile (fun c => c ≠ '"')) :: es, rest4)
          | none => none
        | _ => none
      | _ => none

def parseDocAux (fuel : Nat) (cs : List Char) : Option TomlDoc :=
  if cs = [] then some []
  else
    match fuel with
    | 0 => none
    | Nat.succ f =>
      match cs with
      | '[' :: rest =>
        match rest.dropWhile (fun c => c ≠ ']') with
        | ']' :: '\n' :: rest2 =>
          match parseEntriesAux rest2.length rest2 with
          | some (es, rest3) =>
            match parseDocAux f rest3 with
            | some secs => some ((rest.takeWhile (fun c => c ≠ ']'), es) :: secs)
            | none => none
          | none => none
        | _ => none
      | _ => none

/-- `save(table)`: serialize the registry document. -/
def saveDoc (d : TomlDoc) : String := String.mk (stringifyDoc d)

/-- `load(text)`: parse the registry document. -/
def loadDoc (s : String) : Option TomlDoc :=
  parseDocAux (s.data.length + 1) s.data

/-- The keys this tool itself reads or writes in a profile record; any
other key (or any whole section this tool did not produce) is "unknown". -/
def knownKeys : List (List Char) :=
  ["account".data, "account_id".data, "access_key_id".data]

def hasUnknownKey (d : TomlDoc) : Bool :=
  d.any (fun s => s.2.any (fun kv => !(knownKeys.contains kv.1)))

/-- A registry table with keys unknown to this tool (for concrete
round-trip checks). -/
def sampleRegistryDoc : TomlDoc :=
  [("myprofile".data,
    [("account".data, "abc123".data),
      ("access_key_id".data, "AKID".data),
      ("exotic_key".data, "kept from another tool".data)]),
    ("othertool".data, [("mystery".data, "42".data)])]

/-- A well-separated environment (for concrete idempotence checks). -/
def wEnv : Env :=
  { isWin := false, appData := none,
    xdgConfigHome := some "/home/u/.conf", home := some "/home/u" }

def wFS : FS :=
  { dirs := ["/", "/home", "/home/u", "/home/u/.config", "/home/u/.conf"],
    files := [("/keep.txt", "data")] }

/-! ## Theorems -/

theorem splitChar_ne_nil (sep : Char) (l : List Char) : splitChar sep l ≠ [] := by
  induction l with
  | nil => simp [splitChar]
  | cons c rest ih =>
    by_cases h : c = sep
    · simp [splitChar, h]
    · simp only [splitChar, if_neg h]
      cases hs : splitChar sep rest with
      | nil => simp
      | cons g gs => simp

theorem splitChar_append_sep (sep : Char) (a rest : List Char)
    (ha : ∀ c ∈ a, c ≠ sep) :
    splitChar sep (a ++ sep :: rest) = a :: splitChar sep rest := by
  induction a with
  | nil => simp [splitChar]
  | cons c a ih =>
    have hc : c ≠ sep := ha c (by simp)
    have ih2 : splitChar sep (a ++ sep :: rest) = a :: splitChar sep rest :=
      ih (fun x hx => ha x (by simp [hx]))
    simp only [List.cons_append, splitChar, if_neg hc]
    rw [show a.append (sep :: rest) = a ++ sep :: rest from rfl, ih2]

/-- C1: Violated by the code.  The record `initConfig` persists conforms
to the `{account, access_key_id}` schema and carries no secret, but on the
failing input (an rclone section with an R2 endpoint) `importConfig`
persists the keys `account_id, access_key_id` — not the schema's
`account` — so the record does not conform, and the readers
(`retrieveConfig`, `retrieveOnlyConfig`), which read the `account` key,
find nothing there.  The secret is indeed never part of either record. -/
theorem importConfig_record_breaks_schema :
    (∀ aid ak, conformsProfileSchema (initRecord aid ak) = true ∧
      recordHasKey (initRecord aid ak) "secret_access_key" = false) ∧
    (importRecord "https://feedfacefeedfacefeedfacefeedface.r2.cloudflarestorage.com" "AKID" =
      [("account_id", "feedfacefeedfacefeedfacefeedface"), ("access_key_id", "AKID")]) ∧
    conformsProfileSchema
      (importRecord "https://feedfacefeedfacefeedfacefeedface.r2.cloudflarestorage.com" "AKID") = false ∧
    recordHasKey
      (importRecord "https://feedfacefeedfacefeedfacefeedface.r2.cloudflarestorage.com" "AKID")
      "account" = false ∧
    recordHasKey
      (importRecord "https://feedfacefeedfacefeedfacefeedface.r2.cloudflarestorage.com" "AKID")
      "secret_access_key" = false := by
  refine ⟨fun aid ak => ⟨rfl, rfl⟩, ?_, ?_, ?_, ?_⟩ <;> decide

/-- C4: the presigned HTTP method is determined solely by the verb
family: `Put*` (creation-style) presigns as GET, `Delete*` as DELETE,
`Head*` as HEAD, every other verb as GET — for every command the engine
builds. -/
theorem presignMethod_matches_family (c : S3Cmd) :
    presignMethod (ctorName c) = specFamilyMethod (verbFamily c) := by
  cases c <;> decide

theorem getHeader_setHeader (h : Headers) (k : String) (v : Option String) (k2 : String) :
    getHeader (setHeader h k v) k2 = if k2 = k then some v else getHeader h k2 := by
  induction h with
  | nil =>
    by_cases hk2 : k2 = k
    · subst hk2; simp [setHeader, getHeader]
    · have h3 : ¬k = k2 := fun h4 => hk2 h4.symm
      simp [setHeader, getHeader, hk2, h3]
  | cons p t ih =>
    by_cases hp : p.1 = k
    · by_cases hpk2 : p.1 = k2
      · have hk2 : k2 = k := hpk2.symm.trans hp
        simp [setHeader, getHeader, hp, hpk2, hk2]
      · have hk2 : ¬k2 = k := fun h2 => hpk2 (hp.trans h2.symm)
        have hk3 : ¬k = k2 := fun h2 => hk2 h2.symm
        simp [setHeader, getHeader, hp, hpk2, hk2, hk3]
    · by_cases hpk2 : p.1 = k2
      · have hk2 : ¬k2 = k := fun h2 => hp (hpk2.trans h2)
        simp [setHeader, getHeader, hp, hpk2, hk2]
      · simp [setHeader, getHeader, hp, hpk2, ih]

theorem hasHeaderKey_setHeader (h : Headers) (k : String) (v : Option String) (k2 : String) :
    hasHeaderKey (setHeader h k v) k2 = (hasHeaderKey h k2 || k2 == k) := by
  induction h with
  | nil =>
    by_cases hk : k2 = k
    · subst hk; simp [setHeader, hasHeaderKey]
    · have hk3 : ¬k = k2 := fun h2 => hk h2.symm
      simp [setHeader, hasHeaderKey, beq_iff_eq, hk, hk3]
  | cons p t ih =>
    by_cases hp : p.1 = k
    · simp only [setHeader, if_pos hp, hasHeaderKey, List.any_cons]
      by_cases hpk2 : p.1 = k2
      · rw [show (p.1 == k2) = true by simp [beq_iff_eq, hpk2]]
        simp
      · rw [show (p.1 == k2) = true → False by simp [beq_iff_eq, hpk2] |>
          fun h2 => (Bool.eq_false_iff.mpr (fun h3 => h2 h3) : (p.1 == k2) = false)]
        by_cases hk2 : k2 = k
        · exact absurd (hp.trans hk2.symm) hpk2
        · rw [show (k2 == k) = false by simp [beq_iff_eq, hk2]]
          simp
    · simp only [setHeader, if_neg hp, hasHeaderKey, List.any_cons] at ih ⊢
      rw [ih, Bool.or_assoc]

theorem find?_append_single {α : Type} (l : List α) (a : α) (p : α → Bool) :
    (l ++ [a]).find? p =
      match l.find? p with
      | some x => some x
      | none => if p a then some a else none := by
  induction l with
  | nil => cases hpa : p a <;> simp [List.find?_cons, hpa]
  | cons b l ih => cases hpb : p b <;> simp [List.find?_cons, hpb, ih]

theorem lastSignValue_cons (kv : String) (rest : List String) (k : String) :
    lastSignValue (kv :: rest) k =
      match lastSignValue rest k with
      | some v => some v
      | none => if (splitKV kv).1 == k then some (splitKV kv).2 else none := by
  unfold lastSignValue
  rw [List.reverse_cons, find?_append_single]
  cases hf : rest.reverse.find? (fun kv2 => (splitKV kv2).1 == k) <;>
    cases hpa : ((splitKV kv).1 == k) <;> simp [hf, hpa]

theorem mergeSignHeaders_getHeader (shs : List String) (base : Headers) (k : String) :
    getHeader (mergeSignHeaders base shs) k =
      match lastSignValue shs k with
      | some v => some v
      | none => getHeader base k := by
  induction shs generalizing base with
  | nil => simp [mergeSignHeaders, lastSignValue]
  | cons kv rest ih =>
    have h0 : mergeSignHeaders base (kv :: rest) =
        mergeSignHeaders (setHeader base (splitKV kv).1 (splitKV kv).2) rest := rfl
    rw [h0, ih, lastSignValue_cons]
    cases hf : lastSignValue rest k with
    | some v => simp
    | none =>
      simp only []
      rw [getHeader_setHeader]
      by_cases hk : k = (splitKV kv).1
      · have h2 : ((splitKV kv).1 == k) = true := by simp [beq_iff_eq, hk.symm]
        simp [hk, h2]
      · have h2 : ((splitKV kv).1 == k) = false := by
          simp only [beq_eq_false_iff_ne, ne_eq]
          exact fun h3 => hk h3.symm
        simp [hk, h2]

theorem mergeSignHeaders_hasKey (shs : List String) (base : Headers) (k : String) :
    hasHeaderKey (mergeSignHeaders base shs) k =
      (hasHeaderKey base k || shs.any (fun kv => (splitKV kv).1 == k)) := by
  induction shs generalizing base with
  | nil => simp [mergeSignHeaders]
  | cons kv rest ih =>
    have h0 : mergeSignHeaders base (kv :: rest) =
        mergeSignHeaders (setHeader base (splitKV kv).1 (splitKV kv).2) rest := rfl
    rw [h0, ih, hasHeaderKey_setHeader, List.any_cons]
    by_cases hk : k = (splitKV kv).1
    · have h2 : ((splitKV kv).1 == k) = true := by simp [beq_iff_eq, hk.symm]
      have h3 : (k == (splitKV kv).1) = true := by simp [beq_iff_eq, hk]
      simp [h2, h3]
    · have h2 : ((splitKV kv).1 == k) = false := by
        simp only [beq_eq_false_iff_ne, ne_eq]
        exact fun h3 => hk h3.symm
      have h3 : (k == (splitKV kv).1) = false := by
        simp only [beq_eq_false_iff_ne, ne_eq]
        exact hk
      simp [h2, h3, Bool.or_assoc]

/-- C5: the merged header set passed to signing contains every base key
and every sign-header key; on a collision a sign-header pair overrides
the base value, and a later sign-header pair overrides an earlier one;
in particular base `{A: 1}` with sign-headers `["A=2","B=3"]` merges to
`{A: 2, B: 3}`. -/
theorem merged_headers_precedence (base : Headers) (shs : List String) :
    (∀ k, hasHeaderKey (mergeSignHeaders base shs) k =
      (hasHeaderKey base k || shs.any (fun kv => (splitKV kv).1 == k))) ∧
    (∀ k, getHeader (mergeSignHeaders base shs) k =
      match lastSignValue shs k with
      | some v => some v
      | none => getHeader base k) ∧
    mergeSignHeaders [("A", some "1")] ["A=2", "B=3"] =
      [("A", some "2"), ("B", some "3")] :=
  ⟨fun k => mergeSignHeaders_hasKey shs base k,
    fun k => mergeSignHeaders_getHeader shs base k, by decide⟩

/-- C9: a `--sign-header` value containing its own `=` is silently
truncated: for `a=b=c` (with `a`, `b` free of `=`), only the text
between the first and second `=` is kept as the signed value — header
`a` is signed with value `b`, and everything after the second `=` is
discarded, whatever it is. -/
theorem signHeader_value_truncated (a b c : List Char)
    (ha : ∀ ch ∈ a, ch ≠ '=') (hb : ∀ ch ∈ b, ch ≠ '=') :
    splitKV (String.mk (a ++ '=' :: (b ++ '=' :: c))) = (String.mk a, some (String.mk b)) ∧
    getHeader (mergeSignHeaders [] [String.mk (a ++ '=' :: (b ++ '=' :: c))]) (String.mk a) =
      some (some (String.mk b)) := by
  have hsplit : splitChar '=' (a ++ '=' :: (b ++ '=' :: c)) = a :: b :: splitChar '=' c := by
    rw [splitChar_append_sep _ _ _ ha, splitChar_append_sep _ _ _ hb]
  have h1 : splitKV (String.mk (a ++ '=' :: (b ++ '=' :: c))) =
      (String.mk a, some (String.mk b)) := by
    unfold splitKV
    rw [show (String.mk (a ++ '=' :: (b ++ '=' :: c))).data =
      a ++ '=' :: (b ++ '=' :: c) from rfl, hsplit]
  refine ⟨h1, ?_⟩
  have h2 : mergeSignHeaders [] [String.mk (a ++ '=' :: (b ++ '=' :: c))] =
      setHeader [] (splitKV (String.mk (a ++ '=' :: (b ++ '=' :: c)))).1
        (splitKV (String.mk (a ++ '=' :: (b ++ '=' :: c)))).2 := rfl
  rw [h2, h1]
  simp [setHeader, getHeader]

theorem signHeader_value_truncated_witness :
    splitKV "A=b=c" = ("A", some "b") ∧
    getHeader (mergeSignHeaders [] ["A=b=c"]) "A" = some (some "b") :=
  signHeader_value_truncated ['A'] ['b'] ['c'] (by decide) (by decide)

/-- C10: in `put-object`, the `IfModifiedSince` extra header is always
populated from `--uploaded-before` and never from `--uploaded-after`:
whenever `--uploaded-after` is supplied the entry is present with the
`--uploaded-before` value, so with only `--uploaded-after` the entry's
value is `undefined`, and with both supplied the `--uploaded-before`
value is sent for both `IfModifiedSince` and `IfUnmodifiedSince`. -/
theorem putObject_ifModifiedSince_from_uploadedBefore (a : PutObjectCondArgs) :
    (getHeader (putObjectExtraHeaders a) "IfModifiedSince" =
      if truthy a.uploaded_after then some a.uploaded_before else none) ∧
    (truthy a.uploaded_after = true → a.uploaded_before = none →
      getHeader (putObjectExtraHeaders a) "IfModifiedSince" = some none ∧
      getHeader (putObjectExtraHeaders a) "IfUnmodifiedSince" = none) ∧
    (truthy a.uploaded_after = true → truthy a.uploaded_before = true →
      getHeader (putObjectExtraHeaders a) "IfModifiedSince" = some a.uploaded_before ∧
      getHeader (putObjectExtraHeaders a) "IfUnmodifiedSince" = some a.uploaded_before) := by
  refine ⟨?_, ?_, ?_⟩
  · cases h1 : truthy a.is_etag <;> cases h2 : truthy a.not_etag <;>
      cases h3 : truthy a.uploaded_after <;> cases h4 : truthy a.uploaded_before <;>
      simp [putObjectExtraHeaders, getHeader, h1, h2, h3, h4]
  · intro h3 hb
    have h4 : truthy a.uploaded_before = false := by rw [hb]; rfl
    cases h1 : truthy a.is_etag <;> cases h2 : truthy a.not_etag <;>
      simp [putObjectExtraHeaders, getHeader, h1, h2, h3, h4, hb]
  · intro h3 h4
    cases h1 : truthy a.is_etag <;> cases h2 : truthy a.not_etag <;>
      simp [putObjectExtraHeaders, getHeader, h1, h2, h3, h4]

theorem putObject_ifModifiedSince_witness :
    (getHeader (putObjectExtraHeaders ⟨none, none, none, some "2021-01-01"⟩)
      "IfModifiedSince" = some none) ∧
    (getHeader (putObjectExtraHeaders ⟨none, none, some "2020-01-01", some "2021-01-01"⟩)
      "IfModifiedSince" = some (some "2020-01-01")) :=
  ⟨((putObject_ifModifiedSince_from_uploadedBefore
      ⟨none, none, none, some "2021-01-01"⟩).2.1 (by decide) rfl).1,
    ((putObject_ifModifiedSince_from_uploadedBefore
      ⟨none, none, some "2020-01-01", some "2021-01-01"⟩).2.2 (by decide) (by decide)).1⟩

/-- C8: in every execution of `saveCreds` the trace starts with the
validation call against the derived endpoint; a vault write occurs only
in executions whose validation succeeded, and any vault write sits at a
strictly later trace position than the validation call; a validation
failure terminates the flow (`process.exit(1)`) with no vault write. -/
theorem saveCreds_validates_before_write (aid ak s : String) (vOk kOk : Bool) :
    ((saveCreds aid ak s vOk kOk).head? =
      some (.validateCall (endpointOf aid) ak)) ∧
    (∀ e ak2 s2, SaveEvent.vaultWrite e ak2 s2 ∈ saveCreds aid ak s vOk kOk →
      vOk = true) ∧
    (vOk = false → saveCreds aid ak s vOk kOk =
      [.validateCall (endpointOf aid) ak, .hardExit 1]) ∧
    (∀ i e ak2 s2, (saveCreds aid ak s vOk kOk).get? i =
        some (.vaultWrite e ak2 s2) →
      0 < i ∧ (saveCreds aid ak s vOk kOk).get? 0 =
        some (.validateCall (endpointOf aid) ak)) := by
  refine ⟨?_, ?_, ?_, ?_⟩
  · cases vOk <;> cases kOk <;> rfl
  · intro e ak2 s2 hmem
    cases vOk
    · simp [saveCreds] at hmem
    · rfl
  · intro hv
    subst hv
    rfl
  · intro i e ak2 s2 hget
    cases vOk
    · rcases i with _ | _ | i <;> simp [saveCreds, List.get?] at hget
    · cases kOk
      · rcases i with _ | _ | i <;> simp [saveCreds, List.get?] at hget
      · rcases i with _ | _ | i
        · simp [saveCreds, List.get?] at hget
        · exact ⟨Nat.zero_lt_one, rfl⟩
        · simp [saveCreds, List.get?] at hget

theorem saveCreds_validates_before_write_witness :
    0 < 1 ∧ (saveCreds "acc" "ak" "sec" true true).get? 0 =
      some (SaveEvent.validateCall (endpointOf "acc") "ak") :=
  (saveCreds_validates_before_write "acc" "ak" "sec" true true).2.2.2 1
    (endpointOf "acc") "ak" "sec" (by decide)

/-- C6: `retrieveOnlyConfig` on an empty table fails with the
no-profiles error without prompting; on a one-profile table it resolves
that profile directly with no prompt; on a table of two or more profiles
it issues exactly one single-choice prompt whose choices are
`"<account>: <profile>"` for every profile. -/
theorem retrieveOnlyConfig_prompting (table : Registry) (vault : Vault)
    (choose : List String → String) :
    (table = [] → retrieveOnlyConfig table vault choose =
      ([], ([], .error .noProfiles))) ∧
    (∀ p, table = [p] → retrieveOnlyConfig table vault choose =
      ([], finishImplicit vault p)) ∧
    (2 ≤ table.length →
      (retrieveOnlyConfig table vault choose).1 = [table.map choiceLabel]) := by
  refine ⟨?_, ?_, ?_⟩
  · intro h
    subst h
    rfl
  · intro p h
    subst h
    rfl
  · intro h
    match table, h with
    | p :: q :: rest, _ => rfl

theorem retrieveOnlyConfig_prompting_witness :
    (retrieveOnlyConfig [] (fun e a => some "s") (fun l => l.headD "") =
      ([], ([], .error .noProfiles))) ∧
    (retrieveOnlyConfig [("p", ⟨"acc", "ak"⟩)] (fun e a => some "s") (fun l => l.headD "") =
      ([], finishImplicit (fun e a => some "s") ("p", ⟨"acc", "ak"⟩))) ∧
    ((retrieveOnlyConfig [("p", ⟨"acc", "ak"⟩), ("q", ⟨"acc2", "ak2"⟩)]
        (fun e a => some "s") (fun l => l.headD "")).1 =
      [[choiceLabel ("p", ⟨"acc", "ak"⟩), choiceLabel ("q", ⟨"acc2", "ak2"⟩)]]) :=
  ⟨(retrieveOnlyConfig_prompting [] _ _).1 rfl,
    (retrieveOnlyConfig_prompting [("p", ⟨"acc", "ak"⟩)] _ _).2.1 _ rfl,
    (retrieveOnlyConfig_prompting [("p", ⟨"acc", "ak"⟩), ("q", ⟨"acc2", "ak2"⟩)] _ _).2.2
      (by decide)⟩

theorem scanProfiles_append (vault : Vault) (acct : String) (pre post : Registry)
    (p : String) (info : ProfileInfo) (secret : String)
    (hacct : info.account = acct)
    (hsec : retrieveCreds vault info.account info.access_key_id = some secret)
    (hpre : ∀ q ∈ pre, q.2.account = acct →
      retrieveCreds vault q.2.account q.2.access_key_id = none) :
    scanProfiles vault acct (pre ++ (p, info) :: post) =
      ((pre.filter (fun q => q.2.account == acct)).map (fun q => warnScan q.1 acct),
        some ⟨acct, info.account, info.access_key_id, secret⟩) := by
  induction pre with
  | nil =>
    have hsec2 : retrieveCreds vault acct info.access_key_id = some secret := by
      rw [← hacct]; exact hsec
    simp [scanProfiles, hacct, hsec2]
  | cons q pre ih =>
    obtain ⟨qn, qi⟩ := q
    have ih2 := ih (fun r hr hracct => hpre r (by simp [hr]) hracct)
    by_cases hq : qi.account = acct
    · have hqsec := hpre (qn, qi) (by simp) hq
      have hqsec2 : retrieveCreds vault acct qi.access_key_id = none := by
        rw [← hq]; exact hqsec
      simp [scanProfiles, hq, hqsec2, ih2, List.filter_cons, beq_iff_eq]
    · simp [scanProfiles, hq, ih2, List.filter_cons, beq_iff_eq]

/-- C2: when the identifier is a 32-hex account id that is not itself a
profile name, and the table decomposes as `pre ++ (p, info) :: post`
with `info.account` equal to the identifier, a retrievable secret for
`info`, and secrets missing for every earlier entry of the same account,
`retrieveConfig` returns the first retrievable entry's credentials and
one warning (not a failure) per skipped earlier matching entry. -/
theorem retrieveConfig_first_retrievable (table : Registry) (vault : Vault)
    (id : String) (pre post : Registry) (p : String) (info : ProfileInfo)
    (secret : String)
    (hhex : isHex32 id = true)
    (hname : lookupProfile table id = none)
    (hsplit : table = pre ++ (p, info) :: post)
    (hacct : info.account = id)
    (hsec : retrieveCreds vault info.account info.access_key_id = some secret)
    (hpre : ∀ q ∈ pre, q.2.account = id →
      retrieveCreds vault q.2.account q.2.access_key_id = none) :
    retrieveConfig table vault id =
      ((pre.filter (fun q => q.2.account == id)).map (fun q => warnScan q.1 id),
        Except.ok ⟨id, id, info.access_key_id, secret⟩) := by
  subst hsplit
  have hscan := scanProfiles_append vault id pre post p info secret hacct hsec hpre
  rw [show (⟨id, info.account, info.access_key_id, secret⟩ : Config) =
    ⟨id, id, info.access_key_id, secret⟩ by rw [hacct]] at hscan
  simp [retrieveConfig, hname, hscan]

theorem retrieveConfig_first_retrievable_witness :
    retrieveConfig
      [("one", ⟨"00112233445566778899aabbccddeeff", "AK1"⟩),
        ("two", ⟨"00112233445566778899aabbccddeeff", "AK2"⟩)]
      (fun e a => if a == "AK2" then some "sek" else none)
      "00112233445566778899aabbccddeeff" =
      ([warnScan "one" "00112233445566778899aabbccddeeff"],
        Except.ok ⟨"00112233445566778899aabbccddeeff",
          "00112233445566778899aabbccddeeff", "AK2", "sek"⟩) := by
  have h := retrieveConfig_first_retrievable
    [("one", ⟨"00112233445566778899aabbccddeeff", "AK1"⟩),
      ("two", ⟨"00112233445566778899aabbccddeeff", "AK2"⟩)]
    (fun e a => if a == "AK2" then some "sek" else none)
    "00112233445566778899aabbccddeeff"
    [("one", ⟨"00112233445566778899aabbccddeeff", "AK1"⟩)] []
    "two" ⟨"00112233445566778899aabbccddeeff", "AK2"⟩ "sek"
    (by decide) (by decide) rfl rfl (by decide) (by decide)
  simpa using h

theorem takeWhile_append_stop (p : Char → Bool) (xs : List Char) (y : Char) (ys : List Char)
    (hxs : ∀ c ∈ xs, p c = true) (hy : p y = false) :
    (xs ++ y :: ys).takeWhile p = xs := by
  induction xs with
  | nil => simp [List.takeWhile_cons, hy]
  | cons c xs ih =>
    have hc := hxs c (by simp)
    simp [List.takeWhile_cons, hc, ih (fun d hd => hxs d (by simp [hd]))]

theorem dropWhile_append_stop (p : Char → Bool) (xs : List Char) (y : Char) (ys : List Char)
    (hxs : ∀ c ∈ xs, p c = true) (hy : p y = false) :
    (xs ++ y :: ys).dropWhile p = y :: ys := by
  induction xs with
  | nil => simp [List.dropWhile_cons, hy]
  | cons c xs ih =>
    have hc := hxs c (by simp)
    simp [List.dropWhile_cons, hc, ih (fun d hd => hxs d (by simp [hd]))]

theorem bareChar_ne (c : Char) (h : bareChar c = true) :
    c ≠ '[' ∧ c ≠ ']' ∧ c ≠ ' ' ∧ c ≠ '"' ∧ c ≠ '\n' ∧ c ≠ '=' := by
  refine ⟨?_, ?_, ?_, ?_, ?_, ?_⟩ <;> (intro hc; subst hc; revert h; decide)

theorem parseEntriesAux_stringify (es : List (List Char × List Char)) :
    ∀ (suffix : List Char) (fuel : Nat), es.all wfEntry = true → es.length ≤ fuel →
      (suffix = [] ∨ suffix.head? = some '[') →
      parseEntriesAux fuel (stringifyEntries es ++ suffix) = some (es, suffix) := by
  induction es with
  | nil =>
    intro suffix fuel hwf hfuel hsuf
    rcases hsuf with h | h
    · subst h
      rw [show stringifyEntries [] ++ ([] : List Char) = [] from rfl, parseEntriesAux.eq_def]
      simp
    · cases suffix with
      | nil =>
        rw [show stringifyEntries [] ++ ([] : List Char) = [] from rfl, parseEntriesAux.eq_def]
        simp
      | cons a t =>
        have ha : a = '[' := by simpa using h
        subst ha
        rw [show stringifyEntries [] ++ ('[' :: t) = '[' :: t from rfl, parseEntriesAux.eq_def]
        simp
  | cons kv es ih =>
    intro suffix fuel hwf hfuel hsuf
    obtain ⟨k, v⟩ := kv
    have hwf1 : wfEntry (k, v) = true := by
      have := hwf
      simp only [List.all_cons, Bool.and_eq_true] at this
      exact this.1
    have hwf2 : es.all wfEntry = true := by
      have := hwf
      simp only [List.all_cons, Bool.and_eq_true] at this
      exact this.2
    have hk0 : k ≠ [] := by
      intro hk
      rw [hk] at hwf1
      simp [wfEntry] at hwf1
    have hkbare : ∀ c ∈ k, bareChar c = true := by
      intro c hc
      have := hwf1
      simp only [wfEntry, Bool.and_eq_true, List.all_eq_true, decide_eq_true_eq] at this
      exact this.1.2 c hc
    have hvq : ∀ c ∈ v, c ≠ '"' := by
      intro c hc
      have := hwf1
      simp only [wfEntry, wfVal, Bool.and_eq_true, List.all_eq_true, decide_eq_true_eq] at this
      exact this.2 c hc
    cases fuel with
    | zero => simp at hfuel
    | succ f =>
      have hcs : stringifyEntries ((k, v) :: es) ++ suffix =
          k ++ ' ' :: '=' :: ' ' :: '"' ::
            (v ++ '"' :: '\n' :: (stringifyEntries es ++ suffix)) := by
        simp [stringifyEntries, stringifyEntry, List.append_assoc]
      obtain ⟨k0, kr, hksplit⟩ : ∃ k0 kr, k = k0 :: kr := by
        cases k with
        | nil => exact absurd rfl hk0
        | cons k0 kr => exact ⟨k0, kr, rfl⟩
      have hk0bare := hkbare k0 (by simp [hksplit])
      have hk0ne := bareChar_ne k0 hk0bare
      rw [hcs, parseEntriesAux.eq_def]
      have hne : ¬(k ++ ' ' :: '=' :: ' ' :: '"' ::
          (v ++ '"' :: '\n' :: (stringifyEntries es ++ suffix)) = []) := by
        simp [hksplit]
      rw [if_neg hne]
      have hhead : (k ++ ' ' :: '=' :: ' ' :: '"' ::
          (v ++ '"' :: '\n' :: (stringifyEntries es ++ suffix))).head? ≠ some '[' := by
        simp [hksplit, hk0ne.1]
      rw [if_neg hhead]
      have hdrop1 : (k ++ ' ' :: '=' :: ' ' :: '"' ::
          (v ++ '"' :: '\n' :: (stringifyEntries es ++ suffix))).dropWhile
            (fun c => c ≠ ' ') = ' ' :: '=' :: ' ' :: '"' ::
            (v ++ '"' :: '\n' :: (stringifyEntries es ++ suffix)) := by
        refine dropWhile_append_stop _ _ _ _ ?_ (by simp)
        intro c hc
        simpa using (bareChar_ne c (hkbare c hc)).2.2.1
      have htake1 : (k ++ ' ' :: '=' :: ' ' :: '"' ::
          (v ++ '"' :: '\n' :: (stringifyEntries es ++ suffix))).takeWhile
            (fun c => c ≠ ' ') = k := by
        refine takeWhile_append_stop _ _ _ _ ?_ (by simp)
        intro c hc
        simpa using (bareChar_ne c (hkbare c hc)).2.2.1
      have hdrop2 : (v ++ '"' :: '\n' :: (stringifyEntries es ++ suffix)).dropWhile
          (fun c => c ≠ '"') = '"' :: '\n' :: (stringifyEntries es ++ suffix) := by
        refine dropWhile_append_stop _ _ _ _ ?_ (by simp)
        intro c hc
        simpa using hvq c hc
      have htake2 : (v ++ '"' :: '\n' :: (stringifyEntries es ++ suffix)).takeWhile
          (fun c => c ≠ '"') = v := by
        refine takeWhile_append_stop _ _ _ _ ?_ (by simp)
        intro c hc
        simpa using hvq c hc
      have hih := ih suffix f hwf2
        (by simp only [List.length_cons] at hfuel; omega) hsuf
      simp only [hdrop1, hdrop2, htake1, htake2, hih]

theorem stringifyDoc_shape (d : TomlDoc) :
    stringifyDoc d = [] ∨ (stringifyDoc d).head? = some '[' := by
  cases d with
  | nil => left; rfl
  | cons s d => right; simp [stringifyDoc, stringifySection]

theorem stringifyEntries_length_ge (es : List (List Char × List Char)) :
    es.length ≤ (stringifyEntries es).length := by
  induction es with
  | nil => simp [stringifyEntries]
  | cons kv es ih =>
    simp only [stringifyEntries, stringifyEntry, List.length_append, List.length_cons]
    omega

theorem parseDocAux_stringify (d : TomlDoc) :
    ∀ fuel : Nat, wfDoc d = true → d.length ≤ fuel →
      parseDocAux fuel (stringifyDoc d) = some d := by
  induction d with
  | nil =>
    intro fuel _ _
    rw [show stringifyDoc [] = ([] : List Char) from rfl, parseDocAux.eq_def]
    simp
  | cons s d ih =>
    intro fuel hwf hfuel
    obtain ⟨name, es⟩ := s
    have hwf1 : wfSection (name, es) = true := by
      have := hwf
      simp only [wfDoc, List.all_cons, Bool.and_eq_true] at this
      exact this.1
    have hwf2 : wfDoc d = true := by
      have := hwf
      simp only [wfDoc, List.all_cons, Bool.and_eq_true] at this
      exact this.2
    have hnamebare : ∀ c ∈ name, bareChar c = true := by
      intro c hc
      have := hwf1
      simp only [wfSection, Bool.and_eq_true, List.all_eq_true, decide_eq_true_eq] at this
      exact this.1.2 c hc
    have hes : es.all wfEntry = true := by
      have := hwf1
      simp only [wfSection, Bool.and_eq_true] at this
      exact this.2
    cases fuel with
    | zero => simp at hfuel
    | succ f =>
      have hcs : stringifyDoc ((name, es) :: d) =
          '[' :: (name ++ ']' :: '\n' :: (stringifyEntries es ++ stringifyDoc d)) := by
        simp [stringifyDoc, stringifySection, List.append_assoc]
      rw [hcs, parseDocAux.eq_def]
      rw [if_neg (by simp)]
      have hdrop : (name ++ ']' :: '\n' :: (stringifyEntries es ++ stringifyDoc d)).dropWhile
          (fun c => c ≠ ']') = ']' :: '\n' :: (stringifyEntries es ++ stringifyDoc d) := by
        refine dropWhile_append_stop _ _ _ _ ?_ (by simp)
        intro c hc
        simpa using (bareChar_ne c (hnamebare c hc)).2.1
      have htake : (name ++ ']' :: '\n' :: (stringifyEntries es ++ stringifyDoc d)).takeWhile
          (fun c => c ≠ ']') = name := by
        refine takeWhile_append_stop _ _ _ _ ?_ (by simp)
        intro c hc
        simpa using (bareChar_ne c (hnamebare c hc)).2.1
      have hentries : parseEntriesAux (stringifyEntries es ++ stringifyDoc d).length
          (stringifyEntries es ++ stringifyDoc d) = some (es, stringifyDoc d) := by
        refine parseEntriesAux_stringify es (stringifyDoc d) _ hes ?_ (stringifyDoc_shape d)
        calc es.length ≤ (stringifyEntries es).length := stringifyEntries_length_ge es
          _ ≤ (stringifyEntries es ++ stringifyDoc d).length := by
            simp [List.length_append]
      have hih := ih f hwf2 (by simp only [List.length_cons] at hfuel; omega)
      simp only [hdrop, htake, hentries, hih]

theorem stringifyDoc_length_ge (d : TomlDoc) : d.length ≤ (stringifyDoc d).length := by
  induction d with
  | nil => simp [stringifyDoc]
  | cons s rest ih =>
    simp only [stringifyDoc, stringifySection, List.length_append, List.length_cons]
    omega

/-- C3: `save(load(text))` is byte-for-byte the identity on every
canonical registry text containing unknown extra keys — `load` recovers
exactly the key/value table (unknown keys included, in position and with
their values) and `save` re-renders the identical bytes. -/
theorem save_load_roundtrip (d : TomlDoc) (h1 : wfDoc d = true)
    (h2 : hasUnknownKey d = true) :
    loadDoc (saveDoc d) = some d ∧
    (loadDoc (saveDoc d)).map saveDoc = some (saveDoc d) := by
  have h3 : loadDoc (saveDoc d) = some d := by
    unfold loadDoc saveDoc
    rw [show (String.mk (stringifyDoc d)).data = stringifyDoc d from rfl]
    refine parseDocAux_stringify d _ h1 ?_
    have h4 := stringifyDoc_length_ge d
    omega
  exact ⟨h3, by rw [h3]; rfl⟩

theorem fsLe_refl (fs : FS) : fsLe fs fs := ⟨fun d h => h, fun p h => h⟩

theorem fsLe_trans {a b c : FS} (h1 : fsLe a b) (h2 : fsLe b c) : fsLe a c :=
  ⟨fun d hd => h2.1 d (h1.1 d hd), fun p hp => h2.2 p (h1.2 p hp)⟩

theorem hasFile_eq_of_files {fs g : FS} (h : g.files = fs.files) (p : String) :
    hasFile g p = hasFile fs p := by
  unfold hasFile
  rw [h]

theorem fileContents_eq_of_files {fs g : FS} (h : g.files = fs.files) (p : String) :
    fileContents g p = fileContents fs p := by
  unfold fileContents
  rw [h]

theorem hasDir_eq_of_dirs {fs g : FS} (h : g.dirs = fs.dirs) (d : String) :
    hasDir g d = hasDir fs d := by
  unfold hasDir
  rw [h]

theorem mkdirApply_files (fs : FS) (d : String) : (mkdirApply fs d).files = fs.files := by
  unfold mkdirApply
  cases mkdirOutcome fs d <;> rfl

theorem mkdirApply_hasDir_le (fs : FS) (d d2 : String) (h : hasDir fs d2 = true) :
    hasDir (mkdirApply fs d) d2 = true := by
  unfold mkdirApply
  cases mkdirOutcome fs d <;> simp_all [hasDir, List.contains_cons]

theorem mkdirApply_dirs_new (fs : FS) (d d2 : String)
    (h : hasDir (mkdirApply fs d) d2 = true) : hasDir fs d2 = true ∨ d2 = d := by
  unfold mkdirApply at h
  cases hout : mkdirOutcome fs d <;> rw [hout] at h
  · simp only [hasDir, List.contains_cons] at h
    rcases Bool.or_eq_true_iff.mp h with h2 | h2
    · right
      exact beq_iff_eq.mp h2
    · left
      exact h2
  · exact Or.inl h
  · exact Or.inl h

theorem mkdirApply_grow (fs : FS) (d : String) : fsLe fs (mkdirApply fs d) :=
  ⟨fun d2 h => mkdirApply_hasDir_le fs d d2 h,
    fun p h => by rw [hasFile_eq_of_files (mkdirApply_files fs d) p]; exact h⟩

theorem touchFS_cases {fs fs2 : FS} {p : String} (h : touchFS fs p = some fs2) :
    (hasFile fs p = true ∧ fs2 = fs) ∨
    (hasFile fs p = false ∧ hasDir fs p = false ∧ hasDir fs (dirname p) = true ∧
      fs2 = { fs with files := (p, "") :: fs.files }) := by
  unfold touchFS at h
  by_cases h1 : hasFile fs p = true
  · rw [if_pos h1] at h
    injection h with h
    exact Or.inl ⟨h1, h.symm⟩
  · rw [if_neg h1] at h
    by_cases h2 : hasDir fs p = true
    · rw [if_pos h2] at h
      exact absurd h (by simp)
    · rw [if_neg h2] at h
      by_cases h3 : hasDir fs (dirname p) = true
      · rw [if_pos h3] at h
        injection h with h
        exact Or.inr ⟨Bool.eq_false_iff.mpr h1, Bool.eq_false_iff.mpr h2, h3, h.symm⟩
      · rw [if_neg h3] at h
        exact absurd h (by simp)

theorem touchFS_dirs {fs fs2 : FS} {p : String} (h : touchFS fs p = some fs2) :
    fs2.dirs = fs.dirs := by
  rcases touchFS_cases h with ⟨_, h2⟩ | ⟨_, _, _, h2⟩ <;> rw [h2]

theorem touchFS_hasFile_self {fs fs2 : FS} {p : String} (h : touchFS fs p = some fs2) :
    hasFile fs2 p = true := by
  rcases touchFS_cases h with ⟨h1, h2⟩ | ⟨_, _, _, h2⟩
  · rw [h2]
    exact h1
  · rw [h2]
    simp [hasFile, List.any_cons]

theorem touchFS_files_new {fs fs2 : FS} {p : String} (h : touchFS fs p = some fs2)
    (q : String) (hq : hasFile fs2 q = true) : hasFile fs q = true ∨ q = p := by
  rcases touchFS_cases h with ⟨_, h2⟩ | ⟨_, _, _, h2⟩
  · rw [h2] at hq
    exact Or.inl hq
  · rw [h2] at hq
    simp only [hasFile, List.any_cons] at hq
    rcases Bool.or_eq_true_iff.mp hq with h3 | h3
    · right
      exact (beq_iff_eq.mp h3).symm
    · exact Or.inl h3

theorem touchFS_files_le {fs fs2 : FS} {p : String} (h : touchFS fs p = some fs2)
    (q : String) (hq : hasFile fs q = true) : hasFile fs2 q = true := by
  rcases touchFS_cases h with ⟨_, h2⟩ | ⟨_, _, _, h2⟩
  · rw [h2]
    exact hq
  · rw [h2]
    simp [hasFile, List.any_cons, hasFile] at hq ⊢
    exact Or.inr hq

theorem touchFS_grow {fs fs2 : FS} {p : String} (h : touchFS fs p = some fs2) :
    fsLe fs fs2 :=
  ⟨fun d hd => by rw [hasDir_eq_of_dirs (touchFS_dirs h) d]; exact hd,
    fun q hq => touchFS_files_le h q hq⟩

theorem fileContents_hasFile {fs : FS} {q : String} {c : String}
    (h : fileContents fs q = some c) : hasFile fs q = true := by
  unfold fileContents at h
  unfold hasFile
  cases hf : fs.files.find? (fun f => f.1 == q) with
  | none => rw [hf] at h; simp at h
  | some pr =>
    have hmem := List.mem_of_find?_eq_some hf
    have hpred := List.find?_some hf
    exact List.any_eq_true.mpr ⟨pr, hmem, hpred⟩

theorem touchFS_contents {fs fs2 : FS} {p : String} (h : touchFS fs p = some fs2)
    (q c : String) (hc : fileContents fs q = some c) : fileContents fs2 q = some c := by
  rcases touchFS_cases h with ⟨_, h2⟩ | ⟨h1, _, _, h2⟩
  · rw [h2]
    exact hc
  · have hqp : q ≠ p := by
      intro hqp
      subst hqp
      rw [fileContents_hasFile hc] at h1
      cases h1
    rw [h2]
    unfold fileContents at hc ⊢
    simp only [List.find?_cons]
    rw [show ((p, "").1 == q) = false by
      simp only [beq_eq_false_iff_ne, ne_eq]
      exact fun h4 => hqp h4.symm]
    exact hc

theorem mkdirOutcome_cases (fs : FS) (d : String) :
    (mkdirOutcome fs d = .eexist ∧ (hasDir fs d = true ∨ hasFile fs d = true)) ∨
    (mkdirOutcome fs d = .ok ∧ hasDir fs d = false ∧ hasFile fs d = false ∧
      hasDir fs (dirname d) = true) ∨
    (mkdirOutcome fs d = .enoent ∧ hasDir fs d = false ∧ hasFile fs d = false ∧
      hasDir fs (dirname d) = false) := by
  unfold mkdirOutcome
  by_cases h1 : (hasDir fs d || hasFile fs d) = true
  · rw [if_pos h1]
    exact Or.inl ⟨rfl, Bool.or_eq_true_iff.mp h1⟩
  · have h1a : hasDir fs d = false := by revert h1; cases hasDir fs d <;> simp
    have h1b : hasFile fs d = false := by
      revert h1; cases hasDir fs d <;> cases hasFile fs d <;> simp
    rw [if_neg h1]
    by_cases h2 : hasDir fs (dirname d) = true
    · rw [if_pos h2]
      exact Or.inr (Or.inl ⟨rfl, h1a, h1b, h2⟩)
    · rw [if_neg h2]
      exact Or.inr (Or.inr ⟨rfl, h1a, h1b, Bool.eq_false_iff.mpr h2⟩)

theorem mkdirOutcome_enoent {fs : FS} {d : String} (h : mkdirOutcome fs d = .enoent) :
    hasDir fs d = false ∧ hasFile fs d = false ∧ hasDir fs (dirname d) = false := by
  rcases mkdirOutcome_cases fs d with ⟨h2, _⟩ | ⟨h2, _⟩ | ⟨_, h3⟩
  · rw [h2] at h; cases h
  · rw [h2] at h; cases h
  · exact h3

theorem mkdirOutcome_eexist_of {fs : FS} {d : String}
    (h : (hasDir fs d = true ∨ hasFile fs d = true)) : mkdirOutcome fs d = .eexist := by
  unfold mkdirOutcome
  rw [if_pos (Bool.or_eq_true_iff.mpr h)]

theorem mkdirOutcome_enoent_of {fs : FS} {d : String}
    (h1 : hasDir fs d = false) (h2 : hasFile fs d = false)
    (h3 : hasDir fs (dirname d) = false) : mkdirOutcome fs d = .enoent := by
  unfold mkdirOutcome
  rw [if_neg (by simp [h1, h2]), if_neg (by simp [h3])]

theorem mkdirApply_eexist_eq {fs : FS} {d : String}
    (h : mkdirOutcome fs d = .eexist) : mkdirApply fs d = fs := by
  unfold mkdirApply
  rw [h]

theorem mkdirApply_enoent_eq {fs : FS} {d : String}
    (h : mkdirOutcome fs d = .enoent) : mkdirApply fs d = fs := by
  unfold mkdirApply
  rw [h]

theorem mkdirApply_ok_eq {fs : FS} {d : String}
    (h : mkdirOutcome fs d = .ok) :
    mkdirApply fs d = { fs with dirs := d :: fs.dirs } := by
  unfold mkdirApply
  rw [h]

theorem touchFS_none {fs : FS} {p : String} (h : touchFS fs p = none) :
    hasFile fs p = false ∧
      (hasDir fs p = true ∨ hasDir fs (dirname p) = false) := by
  unfold touchFS at h
  by_cases h1 : hasFile fs p = true
  · rw [if_pos h1] at h; cases h
  · rw [if_neg h1] at h
    refine ⟨Bool.eq_false_iff.mpr h1, ?_⟩
    by_cases h2 : hasDir fs p = true
    · exact Or.inl h2
    · rw [if_neg h2] at h
      by_cases h3 : hasDir fs (dirname p) = true
      · rw [if_pos h3] at h; cases h
      · exact Or.inr (Bool.eq_false_iff.mpr h3)

theorem touchFS_none_of {fs : FS} {p : String}
    (h1 : hasFile fs p = false)
    (h2 : hasDir fs p = true ∨ hasDir fs (dirname p) = false) :
    touchFS fs p = none := by
  unfold touchFS
  rw [if_neg (by simp [h1])]
  rcases h2 with h2 | h2
  · rw [if_pos h2]
  · by_cases h3 : hasDir fs p = true
    · rw [if_pos h3]
    · rw [if_neg h3, if_neg (by simp [h2])]

theorem touchFS_some_of_file {fs : FS} {p : String}
    (h1 : hasFile fs p = true) : touchFS fs p = some fs := by
  unfold touchFS
  rw [if_pos h1]

theorem attemptCandidate_cases (fs : FS) (c : String) :
    (mkdirOutcome fs (dirname c) = .enoent ∧ attemptCandidate fs c = (none, fs)) ∨
    (mkdirOutcome fs (dirname c) ≠ .enoent ∧
      ((∃ fs2, touchFS (mkdirApply fs (dirname c)) c = some fs2 ∧
          attemptCandidate fs c = (some c, fs2)) ∨
        (touchFS (mkdirApply fs (dirname c)) c = none ∧
          attemptCandidate fs c = (none, mkdirApply fs (dirname c))))) := by
  unfold attemptCandidate
  cases hout : mkdirOutcome fs (dirname c)
  · right
    refine ⟨by simp, ?_⟩
    cases htouch : touchFS (mkdirApply fs (dirname c)) c with
    | some fs2 => exact Or.inl ⟨fs2, rfl, by simp [htouch]⟩
    | none => exact Or.inr ⟨rfl, by simp [htouch]⟩
  · right
    refine ⟨by simp, ?_⟩
    cases htouch : touchFS (mkdirApply fs (dirname c)) c with
    | some fs2 => exact Or.inl ⟨fs2, rfl, by simp [htouch]⟩
    | none => exact Or.inr ⟨rfl, by simp [htouch]⟩
  · exact Or.inl ⟨rfl, rfl⟩

theorem attemptCandidate_enoent_eq {fs : FS} {c : String}
    (h : mkdirOutcome fs (dirname c) = .enoent) :
    attemptCandidate fs c = (none, fs) := by
  unfold attemptCandidate
  rw [h]

theorem attemptCandidate_eexist_eq {fs : FS} {c : String}
    (h : mkdirOutcome fs (dirname c) = .eexist) :
    attemptCandidate fs c =
      (match touchFS (mkdirApply fs (dirname c)) c with
        | some fs2 => (some c, fs2)
        | none => (none, mkdirApply fs (dirname c))) := by
  unfold attemptCandidate
  rw [h]

theorem attemptCandidate_grow (fs : FS) (c : String) :
    fsLe fs (attemptCandidate fs c).2 := by
  rcases attemptCandidate_cases fs c with ⟨_, heq⟩ | ⟨_, ⟨fs2, htouch, heq⟩ | ⟨_, heq⟩⟩
  · rw [heq]
    exact fsLe_refl fs
  · rw [heq]
    exact fsLe_trans (mkdirApply_grow fs (dirname c)) (touchFS_grow htouch)
  · rw [heq]
    exact mkdirApply_grow fs (dirname c)

theorem attemptCandidate_fail_files {fs fs2 : FS} {c : String}
    (h : attemptCandidate fs c = (none, fs2)) : fs2.files = fs.files := by
  rcases attemptCandidate_cases fs c with ⟨_, heq⟩ | ⟨_, ⟨fs3, _, heq⟩ | ⟨_, heq⟩⟩
  · rw [h] at heq
    injection heq with h1 h2
    rw [← h2]
  · rw [h] at heq
    injection heq with h1 h2
    cases h1
  · rw [h] at heq
    injection heq with h1 h2
    rw [h2, mkdirApply_files]

theorem attemptCandidate_dirs_new (fs : FS) (c : String) (d : String)
    (h : hasDir (attemptCandidate fs c).2 d = true) :
    hasDir fs d = true ∨ d = dirname c := by
  rcases attemptCandidate_cases fs c with ⟨_, heq⟩ | ⟨_, ⟨fs2, htouch, heq⟩ | ⟨_, heq⟩⟩
  · rw [heq] at h
    exact Or.inl h
  · rw [heq] at h
    rw [show (((some c, fs2) : Option String × FS)).2 = fs2 from rfl] at h
    rw [hasDir_eq_of_dirs (touchFS_dirs htouch) d] at h
    exact mkdirApply_dirs_new fs (dirname c) d h
  · rw [heq] at h
    exact mkdirApply_dirs_new fs (dirname c) d h

theorem attemptCandidate_files_new (fs : FS) (c : String) (p : String)
    (h : hasFile (attemptCandidate fs c).2 p = true) :
    hasFile fs p = true ∨ p = c := by
  rcases attemptCandidate_cases fs c with ⟨_, heq⟩ | ⟨_, ⟨fs2, htouch, heq⟩ | ⟨_, heq⟩⟩
  · rw [heq] at h
    exact Or.inl h
  · rw [heq] at h
    rw [show (((some c, fs2) : Option String × FS)).2 = fs2 from rfl] at h
    rcases touchFS_files_new htouch p h with h2 | h2
    · rw [hasFile_eq_of_files (mkdirApply_files fs (dirname c)) p] at h2
      exact Or.inl h2
    · exact Or.inr h2
  · rw [heq] at h
    rw [show (((none, mkdirApply fs (dirname c)) : Option String × FS)).2 =
      mkdirApply fs (dirname c) from rfl] at h
    rw [hasFile_eq_of_files (mkdirApply_files fs (dirname c)) p] at h
    exact Or.inl h

theorem attemptCandidate_success_eq {fs fs2 : FS} {c r : String}
    (h : attemptCandidate fs c = (some r, fs2)) :
    r = c ∧ touchFS (mkdirApply fs (dirname c)) c = some fs2 ∧
      mkdirOutcome fs (dirname c) ≠ .enoent := by
  rcases attemptCandidate_cases fs c with ⟨_, heq⟩ | ⟨hout, ⟨fs3, htouch, heq⟩ | ⟨_, heq⟩⟩
  · rw [h] at heq
    injection heq with h1 _
    cases h1
  · rw [h] at heq
    injection heq with h1 h2
    injection h1 with h1
    subst h2
    exact ⟨h1, htouch, hout⟩
  · rw [h] at heq
    injection heq with h1 _
    cases h1

theorem attemptCandidate_success_parent {fs fs2 : FS} {c : String}
    (h : attemptCandidate fs c = (some c, fs2)) :
    hasFile fs2 c = true ∧
      (hasDir fs2 (dirname c) = true ∨ hasFile fs2 (dirname c) = true) := by
  obtain ⟨_, htouch, hout⟩ := attemptCandidate_success_eq h
  refine ⟨touchFS_hasFile_self htouch, ?_⟩
  rcases mkdirOutcome_cases fs (dirname c) with ⟨_, hor⟩ | ⟨hok, _, _, _⟩ | ⟨henoent, _⟩
  · rcases hor with h2 | h2
    · exact Or.inl ((touchFS_grow htouch).1 _ ((mkdirApply_grow fs (dirname c)).1 _ h2))
    · exact Or.inr ((touchFS_grow htouch).2 _ ((mkdirApply_grow fs (dirname c)).2 _ h2))
  · left
    have hself : hasDir (mkdirApply fs (dirname c)) (dirname c) = true := by
      rw [mkdirApply_ok_eq hok]
      simp [hasDir, List.contains_cons]
    exact (touchFS_grow htouch).1 _ hself
  · exact absurd henoent hout

theorem attemptCandidate_success_stable {fs fs2 FIN : FS} {c : String}
    (h : attemptCandidate fs c = (some c, fs2)) (hle : fsLe fs2 FIN) :
    attemptCandidate FIN c = (some c, FIN) := by
  obtain ⟨hfile2, hpar2⟩ := attemptCandidate_success_parent h
  have hfile : hasFile FIN c = true := hle.2 _ hfile2
  have hpar : hasDir FIN (dirname c) = true ∨ hasFile FIN (dirname c) = true :=
    hpar2.imp (hle.1 _) (hle.2 _)
  have hout : mkdirOutcome FIN (dirname c) = .eexist := mkdirOutcome_eexist_of hpar
  rw [attemptCandidate_eexist_eq hout, mkdirApply_eexist_eq hout,
    touchFS_some_of_file hfile]

theorem attemptCandidate_fail_stable {fs fs2 FIN : FS} {c : String}
    (h : attemptCandidate fs c = (none, fs2))
    (hle : fsLe fs2 FIN)
    (hfC : hasFile FIN c = hasFile fs c)
    (hdP : hasDir FIN (dirname c) = hasDir fs2 (dirname c))
    (hfP : hasFile FIN (dirname c) = hasFile fs (dirname c))
    (hdG : hasDir FIN (dirname (dirname c)) = hasDir fs (dirname (dirname c)))
    (hdC : hasDir FIN c = hasDir fs c) :
    attemptCandidate FIN c = (none, FIN) := by
  rcases attemptCandidate_cases fs c with ⟨hout, heq⟩ | ⟨hout, ⟨fs3, htouch, heq⟩ | ⟨htouch, heq⟩⟩
  · -- run-1 mkdir ENOENT: nothing relevant appeared since, so ENOENT again
    rw [h] at heq
    injection heq with _ h2
    obtain ⟨ha, hb, hc2⟩ := mkdirOutcome_enoent hout
    have hout2 : mkdirOutcome FIN (dirname c) = .enoent := by
      refine mkdirOutcome_enoent_of ?_ ?_ ?_
      · rw [hdP, h2]
        exact ha
      · rw [hfP]
        exact hb
      · rw [hdG]
        exact hc2
    exact attemptCandidate_enoent_eq hout2
  · -- run 1 succeeded: contradicts h
    rw [h] at heq
    injection heq with h1 _
    cases h1
  · -- run-1 mkdir ok/EEXIST, touch failed
    rw [h] at heq
    injection heq with _ h2
    obtain ⟨hnof, hdisj⟩ := touchFS_none htouch
    rcases mkdirOutcome_cases fs (dirname c) with ⟨hee, hor⟩ | ⟨hok, hDf, hFf, _⟩ | ⟨henoent, _⟩
    · -- EEXIST in run 1
      have hfs1 : mkdirApply fs (dirname c) = fs := mkdirApply_eexist_eq hee
      rw [hfs1] at hnof hdisj h2
      have hout2 : mkdirOutcome FIN (dirname c) = .eexist := by
        refine mkdirOutcome_eexist_of ?_
        rcases hor with h3 | h3
        · left
          rw [hdP, h2]
          exact h3
        · right
          rw [hfP]
          exact h3
      rw [attemptCandidate_eexist_eq hout2, mkdirApply_eexist_eq hout2]
      have htouch2 : touchFS FIN c = none := by
        refine touchFS_none_of (by rw [hfC]; exact hnof) ?_
        rcases hdisj with h3 | h3
        · left
          rw [hdC]
          exact h3
        · right
          rw [hdP, h2]
          exact h3
      rw [htouch2]
    · -- mkdir ok in run 1, touch failed because the candidate is a directory
      have hfs1 : mkdirApply fs (dirname c) =
          { fs with dirs := dirname c :: fs.dirs } := mkdirApply_ok_eq hok
      have hparent1 : hasDir (mkdirApply fs (dirname c)) (dirname c) = true := by
        rw [hfs1]
        simp [hasDir, List.contains_cons]
      have hdirc : hasDir (mkdirApply fs (dirname c)) c = true := by
        rcases hdisj with h3 | h3
        · exact h3
        · rw [hparent1] at h3
          cases h3
      have hnofc : hasFile fs c = false := by
        rw [← hasFile_eq_of_files (mkdirApply_files fs (dirname c)) c]
        exact hnof
      rcases mkdirApply_dirs_new fs (dirname c) c hdirc with h3 | h3
      · -- the candidate was already a directory
        have hout2 : mkdirOutcome FIN (dirname c) = .eexist := by
          refine mkdirOutcome_eexist_of (Or.inl ?_)
          rw [hdP, h2]
          exact hparent1
        rw [attemptCandidate_eexist_eq hout2, mkdirApply_eexist_eq hout2]
        have htouch2 : touchFS FIN c = none := by
          refine touchFS_none_of (by rw [hfC]; exact hnofc) (Or.inl ?_)
          rw [hdC]
          exact h3
        rw [htouch2]
      · -- the candidate IS its own parent directory: contradiction via hdC
        have h4 : hasDir FIN c = true := by
          refine hle.1 c ?_
          rw [h2]
          exact hdirc
        rw [hdC] at h4
        rw [← h3] at hDf
        rw [h4] at hDf
        cases hDf
    · exact absurd henoent hout

theorem tryCandidates_cons_some {fs fs1 : FS} {c q : String} {rest : List String}
    (h : attemptCandidate fs c = (some q, fs1)) :
    tryCandidates fs (c :: rest) = (some q, fs1) := by
  unfold tryCandidates
  rw [h]

theorem tryCandidates_cons_none {fs fs1 : FS} {c : String} {rest : List String}
    (h : attemptCandidate fs c = (none, fs1)) :
    tryCandidates fs (c :: rest) = tryCandidates fs1 rest := by
  conv_lhs => rw [tryCandidates]
  rw [h]

theorem tryCandidates_grow (cs : List String) (fs : FS) :
    fsLe fs (tryCandidates fs cs).2 := by
  induction cs generalizing fs with
  | nil => exact fsLe_refl fs
  | cons c rest ih =>
    cases hatt : attemptCandidate fs c with
    | mk r fs1 =>
      have hg : fsLe fs fs1 := by
        have := attemptCandidate_grow fs c
        rw [hatt] at this
        exact this
      cases r with
      | some q =>
        rw [tryCandidates_cons_some hatt]
        exact hg
      | none =>
        rw [tryCandidates_cons_none hatt]
        exact fsLe_trans hg (ih fs1)

theorem tryCandidates_result_mem (cs : List String) (fs : FS) (p : String)
    (h : (tryCandidates fs cs).1 = some p) : p ∈ cs := by
  induction cs generalizing fs with
  | nil => simp [tryCandidates] at h
  | cons c rest ih =>
    cases hatt : attemptCandidate fs c with
    | mk r fs1 =>
      cases r with
      | some q =>
        rw [tryCandidates_cons_some hatt] at h
        have hq : q = c := (attemptCandidate_success_eq hatt).1
        simp only [] at h
        injection h with h
        subst hq
        rw [← h]
        simp
      | none =>
        rw [tryCandidates_cons_none hatt] at h
        exact List.mem_cons_of_mem c (ih fs1 h)

theorem tryCandidates_dirs_new (cs : List String) (fs : FS) (d : String)
    (h : hasDir (tryCandidates fs cs).2 d = true) :
    hasDir fs d = true ∨ ∃ c ∈ cs, d = dirname c := by
  induction cs generalizing fs with
  | nil => exact Or.inl h
  | cons c rest ih =>
    cases hatt : attemptCandidate fs c with
    | mk r fs1 =>
      have hstep : ∀ d2, hasDir fs1 d2 = true → hasDir fs d2 = true ∨ d2 = dirname c := by
        intro d2 h2
        have h3 : hasDir (attemptCandidate fs c).2 d2 = true := by rw [hatt]; exact h2
        exact attemptCandidate_dirs_new fs c d2 h3
      cases r with
      | some q =>
        rw [tryCandidates_cons_some hatt] at h
        rcases hstep d h with h2 | h2
        · exact Or.inl h2
        · exact Or.inr ⟨c, by simp, h2⟩
      | none =>
        rw [tryCandidates_cons_none hatt] at h
        rcases ih fs1 h with h2 | ⟨c2, hc2, h2⟩
        · rcases hstep d h2 with h3 | h3
          · exact Or.inl h3
          · exact Or.inr ⟨c, by simp, h3⟩
        · exact Or.inr ⟨c2, by simp [hc2], h2⟩

theorem tryCandidates_files_new (cs : List String) (fs : FS) (p : String)
    (h : hasFile (tryCandidates fs cs).2 p = true) :
    hasFile fs p = true ∨ (tryCandidates fs cs).1 = some p := by
  induction cs generalizing fs with
  | nil => exact Or.inl h
  | cons c rest ih =>
    cases hatt : attemptCandidate fs c with
    | mk r fs1 =>
      cases r with
      | some q =>
        have hq : q = c := (attemptCandidate_success_eq hatt).1
        rw [hq] at hatt
        rw [tryCandidates_cons_some hatt] at h ⊢
        have h3 : hasFile (attemptCandidate fs c).2 p = true := by rw [hatt]; exact h
        rcases attemptCandidate_files_new fs c p h3 with h4 | h4
        · exact Or.inl h4
        · rw [h4]
          exact Or.inr rfl
      | none =>
        rw [tryCandidates_cons_none hatt] at h ⊢
        rcases ih fs1 h with h2 | h2
        · rw [hasFile_eq_of_files (attemptCandidate_fail_files hatt) p] at h2
          exact Or.inl h2
        · exact Or.inr h2

theorem attemptCandidate_contents (fs : FS) (c : String) (q ct : String)
    (h : fileContents fs q = some ct) :
    fileContents (attemptCandidate fs c).2 q = some ct := by
  rcases attemptCandidate_cases fs c with ⟨_, heq⟩ | ⟨_, ⟨fs2, htouch, heq⟩ | ⟨_, heq⟩⟩
  · rw [heq]
    exact h
  · rw [heq]
    refine touchFS_contents htouch q ct ?_
    rw [fileContents_eq_of_files (mkdirApply_files fs (dirname c)) q]
    exact h
  · rw [heq]
    show fileContents (mkdirApply fs (dirname c)) q = some ct
    rw [fileContents_eq_of_files (mkdirApply_files fs (dirname c)) q]
    exact h

theorem tryCandidates_contents (cs : List String) (fs : FS) (q ct : String)
    (h : fileContents fs q = some ct) :
    fileContents (tryCandidates fs cs).2 q = some ct := by
  induction cs generalizing fs with
  | nil => exact h
  | cons c rest ih =>
    cases hatt : attemptCandidate fs c with
    | mk r fs1 =>
      have hstep : fileContents fs1 q = some ct := by
        have := attemptCandidate_contents fs c q ct h
        rw [hatt] at this
        exact this
      cases r with
      | some p =>
        rw [tryCandidates_cons_some hatt]
        exact hstep
      | none =>
        rw [tryCandidates_cons_none hatt]
        exact ih fs1 hstep



theorem mkdirApply_dirs_new2 (fs : FS) (dd d : String)
    (h : hasDir (mkdirApply fs dd) d = true) :
    hasDir fs d = true ∨
      (d = dd ∧ hasDir fs (dirname dd) = true ∧ hasFile fs dd = false ∧
        hasDir fs dd = false) := by
  rcases mkdirOutcome_cases fs dd with ⟨hout, _⟩ | ⟨hout, h1, h2, h3⟩ | ⟨hout, _⟩
  · rw [mkdirApply_eexist_eq hout] at h
    exact Or.inl h
  · rw [mkdirApply_ok_eq hout] at h
    simp only [hasDir, List.contains_cons] at h
    rcases Bool.or_eq_true_iff.mp h with h4 | h4
    · exact Or.inr ⟨beq_iff_eq.mp h4, h3, h2, h1⟩
    · exact Or.inl h4
  · rw [mkdirApply_enoent_eq hout] at h
    exact Or.inl h

theorem attemptCandidate_dirs_new2 (fs : FS) (c d : String)
    (h : hasDir (attemptCandidate fs c).2 d = true) :
    hasDir fs d = true ∨
      (d = dirname c ∧ hasDir (attemptCandidate fs c).2 (dirname d) = true ∧
        hasFile fs d = false) := by
  rcases attemptCandidate_cases fs c with ⟨_, heq⟩ | ⟨_, ⟨fs2, htouch, heq⟩ | ⟨htouch, heq⟩⟩
  · rw [heq] at h
    exact Or.inl h
  · rw [heq] at h ⊢
    rw [show (((some c, fs2) : Option String × FS)).2 = fs2 from rfl] at h ⊢
    rw [hasDir_eq_of_dirs (touchFS_dirs htouch) d] at h
    rcases mkdirApply_dirs_new2 fs (dirname c) d h with h2 | ⟨h2, h3, h4, _⟩
    · exact Or.inl h2
    · refine Or.inr ⟨h2, ?_, by rw [h2]; exact h4⟩
      rw [h2]
      exact (touchFS_grow htouch).1 _ ((mkdirApply_grow fs (dirname c)).1 _ h3)
  · rw [heq] at h ⊢
    rw [show (((none, mkdirApply fs (dirname c)) : Option String × FS)).2 =
      mkdirApply fs (dirname c) from rfl] at h ⊢
    rcases mkdirApply_dirs_new2 fs (dirname c) d h with h2 | ⟨h2, h3, h4, _⟩
    · exact Or.inl h2
    · refine Or.inr ⟨h2, ?_, by rw [h2]; exact h4⟩
      rw [h2]
      exact (mkdirApply_grow fs (dirname c)).1 _ h3

theorem tryCandidates_dirs_new2 (cs : List String) (fs : FS) (d : String)
    (h : hasDir (tryCandidates fs cs).2 d = true) :
    hasDir fs d = true ∨
      ((∃ c2 ∈ cs, d = dirname c2) ∧
        hasDir (tryCandidates fs cs).2 (dirname d) = true ∧
        hasFile fs d = false) := by
  induction cs generalizing fs with
  | nil => exact Or.inl h
  | cons c rest ih =>
    cases hatt : attemptCandidate fs c with
    | mk r fs1 =>
      cases r with
      | some q =>
        have hq : q = c := (attemptCandidate_success_eq hatt).1
        rw [hq] at hatt
        rw [tryCandidates_cons_some hatt] at h ⊢
        have h2 : hasDir (attemptCandidate fs c).2 d = true := by
          rw [hatt]
          exact h
        rcases attemptCandidate_dirs_new2 fs c d h2 with h3 | ⟨h3, h4, h5⟩
        · exact Or.inl h3
        · rw [hatt] at h4
          exact Or.inr ⟨⟨c, by simp, h3⟩, h4, h5⟩
      | none =>
        rw [tryCandidates_cons_none hatt] at h ⊢
        rcases ih fs1 h with h2 | ⟨⟨c2, hc2, h3⟩, h4, h5⟩
        · have h6 : hasDir (attemptCandidate fs c).2 d = true := by
            rw [hatt]
            exact h2
          rcases attemptCandidate_dirs_new2 fs c d h6 with h7 | ⟨h7, h8, h9⟩
          · exact Or.inl h7
          · rw [hatt] at h8
            exact Or.inr ⟨⟨c, by simp, h7⟩, (tryCandidates_grow rest fs1).1 _ h8, h9⟩
        · refine Or.inr ⟨⟨c2, by simp [hc2], h3⟩, h4, ?_⟩
          rw [← hasFile_eq_of_files (attemptCandidate_fail_files hatt) d]
          exact h5

theorem tryCandidates_success_parent (cs : List String) (fs : FS) (p : String)
    (h : (tryCandidates fs cs).1 = some p) :
    hasFile (tryCandidates fs cs).2 p = true ∧
      (hasDir (tryCandidates fs cs).2 (dirname p) = true ∨
        hasFile (tryCandidates fs cs).2 (dirname p) = true) := by
  induction cs generalizing fs with
  | nil => simp [tryCandidates] at h
  | cons c rest ih =>
    cases hatt : attemptCandidate fs c with
    | mk r fs1 =>
      cases r with
      | some q =>
        have hq : q = c := (attemptCandidate_success_eq hatt).1
        rw [hq] at hatt
        rw [tryCandidates_cons_some hatt] at h ⊢
        have h2 : some c = some p := h
        injection h2 with h2
        subst h2
        exact attemptCandidate_success_parent hatt
      | none =>
        rw [tryCandidates_cons_none hatt] at h ⊢
        exact ih fs1 h

theorem attemptCandidate_ready_success (FIN : FS) (c : String)
    (hfile : hasFile FIN c = true)
    (hpar : hasDir FIN (dirname c) = true ∨ hasFile FIN (dirname c) = true) :
    attemptCandidate FIN c = (some c, FIN) := by
  have hout : mkdirOutcome FIN (dirname c) = .eexist := mkdirOutcome_eexist_of hpar
  rw [attemptCandidate_eexist_eq hout, mkdirApply_eexist_eq hout,
    touchFS_some_of_file hfile]

theorem tryCandidates_stable (cs : List String) (F : List String) (fs FIN : FS)
    (hle : fsLe (tryCandidates fs cs).2 FIN)
    (hD : ∀ d, hasDir FIN d = true → hasDir (tryCandidates fs cs).2 d = true)
    (hF : ∀ p, hasFile FIN p = true → hasFile (tryCandidates fs cs).2 p = true ∨ p ∈ F)
    (hFc : ∀ c ∈ cs, ∀ p ∈ F, p ≠ c ∧ p ≠ dirname c)
    (hp1 : ∀ c1 ∈ cs, ∀ c2 ∈ cs, dirname (dirname c1) ≠ dirname c2)
    (hp2 : ∀ c1 ∈ cs, ∀ c2 ∈ cs, c1 ≠ c2 → dirname c1 ≠ dirname c2)
    (hp3 : ∀ c1 ∈ cs, ∀ c2 ∈ cs, dirname c1 ≠ c2) :
    tryCandidates FIN cs = ((tryCandidates fs cs).1, FIN) := by
  induction cs generalizing fs with
  | nil => rfl
  | cons c rest ih =>
    cases hatt : attemptCandidate fs c with
    | mk r fs1 =>
      cases r with
      | some q =>
        have hq : q = c := (attemptCandidate_success_eq hatt).1
        rw [hq] at hatt
        have hle2 : fsLe fs1 FIN := by
          rw [tryCandidates_cons_some hatt] at hle
          exact hle
        have hstab := attemptCandidate_success_stable hatt hle2
        rw [tryCandidates_cons_some hstab, tryCandidates_cons_some hatt]
      | none =>
        rw [tryCandidates_cons_none hatt] at hle hD hF ⊢
        by_cases hres : (tryCandidates fs1 rest).1 = some c
        · -- a later duplicate of the head succeeded in run 1; run 2
          -- succeeds at the head directly, with the same path and no change
          obtain ⟨hfile, hpar⟩ := tryCandidates_success_parent rest fs1 c hres
          have hstep := attemptCandidate_ready_success FIN c (hle.2 _ hfile)
            (hpar.imp (fun hx => hle.1 _ hx) (fun hx => hle.2 _ hx))
          rw [tryCandidates_cons_some hstep, hres]
        · have hgrow1 : fsLe fs fs1 := by
            have := attemptCandidate_grow fs c
            rw [hatt] at this
            exact this
          have hgrow2 : fsLe fs1 (tryCandidates fs1 rest).2 := tryCandidates_grow rest fs1
          have hfiles1 : fs1.files = fs.files := attemptCandidate_fail_files hatt
          have hfC : hasFile FIN c = hasFile fs c := by
            cases hval : hasFile fs c with
            | true =>
              have h5 : hasFile fs1 c = true := by
                rw [hasFile_eq_of_files hfiles1]
                exact hval
              rw [hle.2 c (hgrow2.2 c h5)]
            | false =>
              cases hF2 : hasFile FIN c with
              | false => rfl
              | true =>
                rcases hF c hF2 with h3 | h3
                · rcases tryCandidates_files_new rest fs1 c h3 with h4 | h4
                  · rw [hasFile_eq_of_files hfiles1, hval] at h4
                    cases h4
                  · exact absurd h4 hres
                · exact absurd rfl (hFc c (by simp) c h3).1
          have hdP : hasDir FIN (dirname c) = hasDir fs1 (dirname c) := by
            cases hval : hasDir fs1 (dirname c) with
            | true => rw [hle.1 _ (hgrow2.1 _ hval)]
            | false =>
              cases hF2 : hasDir FIN (dirname c) with
              | false => rfl
              | true =>
                rcases tryCandidates_dirs_new2 rest fs1 _ (hD _ hF2) with
                  h4 | ⟨⟨c2, hc2, h4⟩, hmidd, hfp1⟩
                · rw [hval] at h4
                  cases h4
                · by_cases hcc2 : c = c2
                  · -- the creating candidate is a duplicate of the head:
                    -- its mkdir could not have succeeded, contradiction
                    subst hcc2
                    have HG : hasDir fs (dirname (dirname c)) = true := by
                      rw [← h4] at hmidd
                      rcases tryCandidates_dirs_new2 rest fs1 _ hmidd with
                        h5 | ⟨⟨c3, hc3, h5⟩, _, _⟩
                      · have h6 : hasDir (attemptCandidate fs c).2
                            (dirname (dirname c)) = true := by
                          rw [hatt]
                          exact h5
                        rcases attemptCandidate_dirs_new fs c _ h6 with h7 | h7
                        · exact h7
                        · exact absurd h7 (hp1 c (by simp) c (by simp))
                      · exact absurd h5 (hp1 c (by simp) c3 (by simp [hc3]))
                    rcases attemptCandidate_cases fs c with
                      ⟨hout, heq⟩ | ⟨hout, ⟨fs2x, htouch, heq⟩ | ⟨htouch, heq⟩⟩
                    · obtain ⟨_, _, h8⟩ := mkdirOutcome_enoent hout
                      rw [HG] at h8
                      cases h8
                    · rw [hatt] at heq
                      injection heq with h8 _
                      cases h8
                    · rw [hatt] at heq
                      injection heq with _ h8
                      rcases mkdirOutcome_cases fs (dirname c) with
                        ⟨hee, hor⟩ | ⟨hok, _, _, _⟩ | ⟨hen, _⟩
                      · have h9 : mkdirApply fs (dirname c) = fs :=
                          mkdirApply_eexist_eq hee
                        rcases hor with h10 | h10
                        · rw [h8, h9, h10] at hval
                          cases hval
                        · rw [hasFile_eq_of_files hfiles1 (dirname c), h10] at hfp1
                          cases hfp1
                      · have h9 : hasDir fs1 (dirname c) = true := by
                          rw [h8, mkdirApply_ok_eq hok]
                          simp [hasDir, List.contains_cons]
                        rw [h9] at hval
                        cases hval
                      · exact absurd hen hout
                  · exact absurd h4 (hp2 c (by simp) c2 (by simp [hc2]) hcc2)
          have hfP : hasFile FIN (dirname c) = hasFile fs (dirname c) := by
            cases hval : hasFile fs (dirname c) with
            | true =>
              have h5 : hasFile fs1 (dirname c) = true := by
                rw [hasFile_eq_of_files hfiles1]
                exact hval
              rw [hle.2 _ (hgrow2.2 _ h5)]
            | false =>
              cases hF2 : hasFile FIN (dirname c) with
              | false => rfl
              | true =>
                rcases hF _ hF2 with h3 | h3
                · rcases tryCandidates_files_new rest fs1 _ h3 with h4 | h4
                  · rw [hasFile_eq_of_files hfiles1, hval] at h4
                    cases h4
                  · have hmem := tryCandidates_result_mem rest fs1 _ h4
                    exact absurd rfl (hp3 c (by simp) (dirname c) (by simp [hmem]))
                · exact absurd rfl (hFc c (by simp) (dirname c) h3).2
          have hdG : hasDir FIN (dirname (dirname c)) = hasDir fs (dirname (dirname c)) := by
            cases hval : hasDir fs (dirname (dirname c)) with
            | true => rw [hle.1 _ (hgrow2.1 _ (hgrow1.1 _ hval))]
            | false =>
              cases hF2 : hasDir FIN (dirname (dirname c)) with
              | false => rfl
              | true =>
                rcases tryCandidates_dirs_new rest fs1 _ (hD _ hF2) with h4 | ⟨c2, hc2, h4⟩
                · have h5 : hasDir (attemptCandidate fs c).2 (dirname (dirname c)) = true := by
                    rw [hatt]
                    exact h4
                  rcases attemptCandidate_dirs_new fs c _ h5 with h6 | h6
                  · rw [hval] at h6
                    cases h6
                  · exact absurd h6 (hp1 c (by simp) c (by simp))
                · exact absurd h4 (hp1 c (by simp) c2 (by simp [hc2]))
          have hdC : hasDir FIN c = hasDir fs c := by
            cases hval : hasDir fs c with
            | true => rw [hle.1 _ (hgrow2.1 _ (hgrow1.1 _ hval))]
            | false =>
              cases hF2 : hasDir FIN c with
              | false => rfl
              | true =>
                rcases tryCandidates_dirs_new rest fs1 _ (hD _ hF2) with h4 | ⟨c2, hc2, h4⟩
                · have h5 : hasDir (attemptCandidate fs c).2 c = true := by
                    rw [hatt]
                    exact h4
                  rcases attemptCandidate_dirs_new fs c _ h5 with h6 | h6
                  · rw [hval] at h6
                    cases h6
                  · exact absurd h6.symm (hp3 c (by simp) c (by simp))
                · exact absurd h4.symm (hp3 c2 (by simp [hc2]) c (by simp))
          have hstab := attemptCandidate_fail_stable hatt (fsLe_trans hgrow2 hle)
            hfC hdP hfP hdG hdC
          rw [tryCandidates_cons_none hstab]
          refine ih fs1 hle hD hF ?_ ?_ ?_ ?_
          · intro c1 h1 p2 h2
            exact hFc c1 (by simp [h1]) p2 h2
          · intro c1 h1 c2 h2
            exact hp1 c1 (by simp [h1]) c2 (by simp [h2])
          · intro c1 h1 c2 h2
            exact hp2 c1 (by simp [h1]) c2 (by simp [h2])
          · intro c1 h1 c2 h2
            exact hp3 c1 (by simp [h1]) c2 (by simp [h2])

theorem runCreate_contents (cands : List String) (fb : Option String) (fs : FS)
    (q ct : String) (h : fileContents fs q = some ct) :
    fileContents (runCreate cands fb fs).2 q = some ct := by
  cases hrun : tryCandidates fs cands with
  | mk r0 fs1 =>
    have h1 : fileContents fs1 q = some ct := by
      have := tryCandidates_contents cands fs q ct h
      rw [hrun] at this
      exact this
    unfold runCreate
    rw [hrun]
    cases r0 with
    | some p => exact h1
    | none =>
      cases fb with
      | none => exact h1
      | some f =>
        cases htouch : touchFS fs1 f with
        | some fs2 =>
          show fileContents
            (match touchFS fs1 f with
              | some fs2 => (some f, fs2)
              | none => (none, fs1)).2 q = some ct
          rw [htouch]
          exact touchFS_contents htouch q ct h1
        | none =>
          show fileContents
            (match touchFS fs1 f with
              | some fs2 => (some f, fs2)
              | none => (none, fs1)).2 q = some ct
          rw [htouch]
          exact h1

theorem runCreate_idem (cands : List String) (fb : Option String) (fs : FS)
    (hNA : nonAliasing cands fb) :
    runCreate cands fb (runCreate cands fb fs).2 =
      ((runCreate cands fb fs).1, (runCreate cands fb fs).2) := by
  obtain ⟨hp1, hp2, hp3, hfb⟩ := hNA
  cases hrun : tryCandidates fs cands with
  | mk r0 fs1 =>
    cases r0 with
    | some p =>
      have hrc : runCreate cands fb fs = (some p, fs1) := by
        unfold runCreate
        rw [hrun]
      rw [hrc]
      have hstab := tryCandidates_stable cands [] fs fs1
        (by rw [hrun]; exact fsLe_refl fs1)
        (by intro d hd; rw [hrun]; exact hd)
        (by intro p2 hp; rw [hrun]; exact Or.inl hp)
        (by intro c hc p2 hp2b; simp at hp2b)
        hp1 hp2 hp3
      rw [hrun] at hstab
      unfold runCreate
      rw [hstab]
    | none =>
      have hstabnone : tryCandidates fs1 cands = (none, fs1) := by
        have hstab := tryCandidates_stable cands [] fs fs1
          (by rw [hrun]; exact fsLe_refl fs1)
          (by intro d hd; rw [hrun]; exact hd)
          (by intro p2 hp; rw [hrun]; exact Or.inl hp)
          (by intro c hc p2 hp2b; simp at hp2b)
          hp1 hp2 hp3
        rw [hrun] at hstab
        exact hstab
      cases fb with
      | none =>
        have hrc : runCreate cands none fs = (none, fs1) := by
          unfold runCreate
          rw [hrun]
        rw [hrc]
        unfold runCreate
        rw [hstabnone]
      | some f =>
        cases htouch : touchFS fs1 f with
        | some fs2 =>
          have hrc : runCreate cands (some f) fs = (some f, fs2) := by
            unfold runCreate
            rw [hrun]
            show (match touchFS fs1 f with
              | some fs3 => (some f, fs3)
              | none => (none, fs1)) = (some f, fs2)
            rw [htouch]
          rw [hrc]
          have hgrow : fsLe fs1 fs2 := touchFS_grow htouch
          have hstab := tryCandidates_stable cands [f] fs fs2
            (by rw [hrun]; exact hgrow)
            (by
              intro d hd
              rw [hrun]
              rw [← hasDir_eq_of_dirs (touchFS_dirs htouch) d]
              exact hd)
            (by
              intro p2 hp
              rw [hrun]
              rcases touchFS_files_new htouch p2 hp with h2 | h2
              · exact Or.inl h2
              · right
                simp [h2])
            (by
              intro c hc p2 hp2b
              have hp2f : p2 = f := by simpa using hp2b
              subst hp2f
              exact hfb p2 (by simp) c hc)
            hp1 hp2 hp3
          rw [hrun] at hstab
          unfold runCreate
          rw [hstab]
          show (match touchFS fs2 f with
            | some fs3 => (some f, fs3)
            | none => (none, fs2)) = (some f, fs2)
          rw [touchFS_some_of_file (touchFS_hasFile_self htouch)]
        | none =>
          have hrc : runCreate cands (some f) fs = (none, fs1) := by
            unfold runCreate
            rw [hrun]
            show (match touchFS fs1 f with
              | some fs3 => (some f, fs3)
              | none => (none, fs1)) = (none, fs1)
            rw [htouch]
          rw [hrc]
          unfold runCreate
          rw [hstabnone]
          show (match touchFS fs1 f with
            | some fs3 => (some f, fs3)
            | none => (none, fs1)) = (none, fs1)
          rw [htouch]

/-- C7 counterexample: with `XDG_CONFIG_HOME=/home/u/.config/cloudflare`
and `HOME=/home/u` (where `/home/u/.config` exists), the first call
creates `~/.config/cloudflare/r2.toml`, which enables the XDG
candidate's mkdir on the second call — the two calls return different
paths. -/
theorem createInitialConfig_not_idempotent :
    (createInitialConfig ceEnv (createInitialConfig ceEnv ceFS).2).1 ≠
      (createInitialConfig ceEnv ceFS).1 := by decide

/-- C7 (amended): `createInitialConfig` never truncates — every existing
file keeps its exact contents through any call — and calling it twice
returns the same path (and leaves the filesystem unchanged the second
time) provided the candidate paths do not alias each other's parent
directories (`nonAliasing`).  The proviso tolerates duplicate candidates
(`XDG_CONFIG_HOME = <home>/.config` makes both candidates the same path
and stays idempotent); for the `<x>/cloudflare/r2.toml` /
`<home>/.config/cloudflare/r2.toml` candidate shapes the tool builds,
it fails only when `XDG_CONFIG_HOME` (or `APPDATA`) is
`<home>/.config/cloudflare` itself, which is the counterexample. -/
theorem createInitialConfig_idempotent_amended (e : Env) (fs : FS) :
    (nonAliasing (mainCandidates e) (homePath1 e) →
      createInitialConfig e (createInitialConfig e fs).2 =
        ((createInitialConfig e fs).1, (createInitialConfig e fs).2)) ∧
    (∀ p c, fileContents fs p = some c →
      fileContents (createInitialConfig e fs).2 p = some c) := by
  constructor
  · intro hNA
    exact runCreate_idem (mainCandidates e) (homePath1 e) fs hNA
  · intro p c h
    exact runCreate_contents (mainCandidates e) (homePath1 e) fs p c h

theorem createInitialConfig_idempotent_witness :
    (createInitialConfig wEnv (createInitialConfig wEnv wFS).2 =
      ((createInitialConfig wEnv wFS).1, (createInitialConfig wEnv wFS).2)) ∧
    fileContents (createInitialConfig wEnv wFS).2 "/keep.txt" = some "data" :=
  ⟨(createInitialConfig_idempotent_amended wEnv wFS).1
      (by unfold nonAliasing; exact ⟨by decide, by decide, by decide, by decide⟩),
    (createInitialConfig_idempotent_amended wEnv wFS).2 "/keep.txt" "data" (by decide)⟩

theorem save_load_roundtrip_witness :
    loadDoc (saveDoc sampleRegistryDoc) = some sampleRegistryDoc ∧
    (loadDoc (saveDoc sampleRegistryDoc)).map saveDoc =
      some (saveDoc sampleRegistryDoc) :=
  save_load_roundtrip sampleRegistryDoc (by decide) (by decide)

end R2
